import Mathlib

/-!
LRUCache (src/include/lru_cache.hpp): a shallow embedding.

The C++ class keeps two containers:

* `order_ : std::list<std::pair<std::string,std::string>>`, the recency order, and
* `map_ : std::unordered_map<std::string, list iterator>`, the key index.

A `std::list` iterator designates a list node, and stays valid while the node is
moved inside the list (`splice`).  A node is modelled by a `Node` carrying the
identity `addr` of the node next to the pair it stores; an iterator is the `addr`
of the node it designates, and `0` is the past-the-end iterator.  The mutex only
serialises the operations; each operation is modelled as a function on the state.
-/

namespace KV

/-- One node of `order_`: the node identity and the stored pair `(first, second)`. -/
structure Node where
  addr : Nat
  first : String
  second : String
deriving DecidableEq, Repr

/-- The private state of `LRUCache` (lru_cache.hpp:55-58), the mutex left out. -/
structure LRUCache where
  cap_ : Nat
  order_ : List Node
  map_ : List (String × Nat)
deriving DecidableEq, Repr

/-! ## The container primitives the class uses -/

/-- An address not used by any node of the list: what allocating a list node gives. -/
def freshAddr (order : List Node) : Nat :=
  (order.map Node.addr).foldr max 0 + 1

/-- The iterator `order_.begin()`: the head node, or past-the-end on an empty list. -/
def listBegin (order : List Node) : Nat :=
  match order with
  | [] => 0
  | n :: _ => n.addr

/-- Dereferencing a list iterator: the node it designates, if it designates one. -/
def deref (order : List Node) (it : Nat) : Option Node :=
  order.find? (fun n => n.addr = it)

/-- The call `order_.splice(order_.begin(), order_, it)`: unlink the node `it` designates and
relink it in front.  An iterator that designates no node (undefined in C++) changes nothing. -/
def splice (order : List Node) (it : Nat) : List Node :=
  match deref order it with
  | some n => n :: order.eraseP (fun m => m.addr = it)
  | none => order

/-- The assignment `it->second = val` through a list iterator. -/
def assignSecond (order : List Node) (it : Nat) (val : String) : List Node :=
  order.map (fun n => if n.addr = it then { n with second := val } else n)

/-- The call `order_.emplace_front(key, val)`: a newly allocated node is linked in front. -/
def emplaceFront (order : List Node) (key val : String) : List Node :=
  { addr := freshAddr order, first := key, second := val } :: order

/-- The call `order_.erase(it)` with a list iterator. -/
def listErase (order : List Node) (it : Nat) : List Node :=
  order.eraseP (fun m => m.addr = it)

/-- The call `map_.find(key)`: the mapped iterator, `none` standing for `map_.end()`. -/
def mapFind (m : List (String × Nat)) (key : String) : Option Nat :=
  m.lookup key

/-- The call `map_.erase(key)`: every element with that key goes. -/
def mapErase (m : List (String × Nat)) (key : String) : List (String × Nat) :=
  m.filter (fun p => p.1 ≠ key)

/-- The statement `map_[key] = it`: insert the key if it is missing, then assign. -/
def mapAssign (m : List (String × Nat)) (key : String) (it : Nat) : List (String × Nat) :=
  match mapFind m key with
  | some _ => m.map (fun p => if p.1 = key then (key, it) else p)
  | none => (key, it) :: m

/-! ## The class -/

/-- The constructor (lru_cache.hpp:10-12). -/
def LRUCache.new (capacity : Nat) : LRUCache :=
  { cap_ := if capacity = 0 then 1 else capacity, order_ := [], map_ := [] }

/-- The method `bool get(key, out)` (lru_cache.hpp:14-22): the returned flag, the content of
`out` after the call, and the state after the call. -/
def LRUCache.get (c : LRUCache) (key : String) (out : String) : Bool × String × LRUCache :=
  match mapFind c.map_ key with
  | none => (false, out, c)
  | some it =>
    let order1 := splice c.order_ it
    let out1 := match deref order1 it with
      | some n => n.second
      | none => out
    (true, out1, { c with order_ := order1 })

/-- The method `void set(key, val)` (lru_cache.hpp:24-39). -/
def LRUCache.set (c : LRUCache) (key val : String) : LRUCache :=
  match mapFind c.map_ key with
  | some it =>
    { c with order_ := splice (assignSecond c.order_ it val) it }
  | none =>
    let order1 := emplaceFront c.order_ key val
    let map1 := mapAssign c.map_ key (listBegin order1)
    if map1.length > c.cap_ then
      match order1.getLast? with
      | some back => { c with order_ := order1.dropLast, map_ := mapErase map1 back.first }
      | none => { c with order_ := order1, map_ := map1 }
    else
      { c with order_ := order1, map_ := map1 }

/-- The method `void erase(key)` (lru_cache.hpp:41-47). -/
def LRUCache.erase (c : LRUCache) (key : String) : LRUCache :=
  match mapFind c.map_ key with
  | none => c
  | some it => { c with order_ := listErase c.order_ it, map_ := mapErase c.map_ key }

/-- The method `size_t size() const` (lru_cache.hpp:49-52). -/
def LRUCache.size (c : LRUCache) : Nat :=
  c.map_.length

/-! ## Sequences of operations -/

/-- One call of a public method that can change the state. -/
inductive Op where
  | get (key : String)
  | set (key val : String)
  | erase (key : String)
deriving DecidableEq, Repr

/-- The state after one call. -/
def LRUCache.step (c : LRUCache) : Op → LRUCache
  | Op.get key => (c.get key "").2.2
  | Op.set key val => c.set key val
  | Op.erase key => c.erase key

/-- The state after a sequence of calls, first call first. -/
def LRUCache.run (c : LRUCache) (ops : List Op) : LRUCache :=
  ops.foldl LRUCache.step c

/-- The states reachable from construction by get/set/erase. -/
def Reachable (c : LRUCache) : Prop :=
  ∃ (capacity : Nat) (ops : List Op), c = (LRUCache.new capacity).run ops

/-- The keys of the recency order, head first. -/
def LRUCache.keys (c : LRUCache) : List String :=
  c.order_.map Node.first

/-- Whether a key is in the cache: the test `map_.find(key) != map_.end()` of every method. -/
def LRUCache.contains (c : LRUCache) (key : String) : Bool :=
  (mapFind c.map_ key).isSome

/-- The (key, value) pair a node stores. -/
def Node.entry (n : Node) : String × String :=
  (n.first, n.second)

/-- The entries of the recency order as (key, value) pairs, head first. -/
def LRUCache.entries (c : LRUCache) : List (String × String) :=
  c.order_.map Node.entry

/-- The key a call accesses, in the sense of the recency order: a `set` accesses its key, a
`get` accesses its key when it finds it, an `erase` accesses nothing. -/
def accessed (c : LRUCache) : Op → Option String
  | Op.get key => if c.contains key = true then some key else none
  | Op.set key _ => some key
  | Op.erase _ => none

/-- The key accessed by the call at position `i` of a sequence run from the state `c0`. -/
def accessAt (c0 : LRUCache) (ops : List Op) (i : Nat) : Option String :=
  match ops[i]? with
  | some op => accessed (c0.run (ops.take i)) op
  | none => none

/-- The position in the sequence of the most recent access to a key, if it was accessed. -/
def lastAccess (c0 : LRUCache) (ops : List Op) (k : String) : Option Nat :=
  ((List.range ops.length).filter (fun i => decide (accessAt c0 ops i = some k))).getLast?

/-- The time stamp of a key: one more than the position of its most recent access, and zero
for a key that was never accessed. -/
def stamp (c0 : LRUCache) (ops : List Op) (k : String) : Nat :=
  match lastAccess c0 ops k with
  | some i => i + 1
  | none => 0

/-- The state of the scenarios of the specification, section 8: capacity 2, then
`set(a,1)`, `set(b,2)`. -/
def scenarioAB : LRUCache :=
  (LRUCache.new 2).run [Op.set "a" "1", Op.set "b" "2"]

/-- A cache of capacity 3 holding `b` (most recent) and `a`. -/
def scenarioRoom : LRUCache :=
  (LRUCache.new 3).run [Op.set "a" "1", Op.set "b" "2"]

/-- The second scenario of the specification, section 8: capacity 2, then `set(a,1)`,
`set(b,2)`, `get(a)`. -/
def scenarioABA : List Op :=
  [Op.set "a" "1", Op.set "b" "2", Op.get "a"]

/-- The pair (key, iterator) the key index should hold for a node. -/
def Node.handle (n : Node) : String × Nat :=
  (n.first, n.addr)

/-- Representation invariant: node identities are distinct and never the past-the-end
iterator, keys are distinct, the key index holds exactly one (key, iterator) pair per node,
and the capacity is positive. -/
structure WF (c : LRUCache) : Prop where
  cap_pos : 1 ≤ c.cap_
  addr_pos : ∀ n ∈ c.order_, 1 ≤ n.addr
  addr_nodup : (c.order_.map Node.addr).Nodup
  key_nodup : (c.order_.map Node.first).Nodup
  index_perm : c.map_.Perm (c.order_.map Node.handle)

/-- One call of a public method, `size()` included; a `get` comes with the content of the
variable passed as `out`. -/
inductive Call where
  | get (key out : String)
  | set (key val : String)
  | erase (key : String)
  | size
deriving DecidableEq, Repr

/-- What a call gives back to its caller: the flag and `out` of a `get`, nothing for `set` and
`erase`, the count for `size`. -/
inductive Answer where
  | got (found : Bool) (out : String)
  | done
  | count (n : Nat)
deriving DecidableEq, Repr

/-- The answer of one call and the state after it. -/
def LRUCache.call (c : LRUCache) : Call → Answer × LRUCache
  | Call.get key out => (Answer.got (c.get key out).1 (c.get key out).2.1, (c.get key out).2.2)
  | Call.set key val => (Answer.done, c.set key val)
  | Call.erase key => (Answer.done, c.erase key)
  | Call.size => (Answer.count c.size, c)

/-- The answers of a sequence of calls, one per call and in order, and the final state. -/
def LRUCache.calls (c : LRUCache) : List Call → List Answer × LRUCache
  | [] => ([], c)
  | x :: xs => ((c.call x).1 :: ((c.call x).2.calls xs).1, ((c.call x).2.calls xs).2)

/-- The calls `set(k, v)` for a list of (key, value) pairs, in the order of the list. -/
def setAll (kvs : List (String × String)) : List Op :=
  kvs.map (fun p => Op.set p.1 p.2)

/-! ## The load generator (src/loadgen.cpp)

A `std::string` is modelled as the list of its characters. -/

/-- The enumeration `WorkloadType` (loadgen.cpp:19-24). -/
inductive WorkloadType where
  | PUT_ALL
  | GET_ALL
  | GET_POPULAR
  | MIX
deriving DecidableEq, Repr

/-- The effective workload of one iteration (loadgen.cpp:118-125); `r` is the draw of
`mix_dist`, which is only looked at for the workload `MIX`. -/
def eff_workload (workload : WorkloadType) (r : Int) : WorkloadType :=
  if workload = WorkloadType.MIX then
    if r < 50 then WorkloadType.GET_POPULAR
    else if r < 80 then WorkloadType.GET_ALL
    else WorkloadType.PUT_ALL
  else workload

/-- The two kinds of request the loop builds. -/
inductive Method where
  | POST
  | GET
deriving DecidableEq, Repr

/-- The method of the request built for an effective workload (loadgen.cpp:127-148): a `POST`
(write) for `PUT_ALL`, a `GET` (read) for `GET_ALL` and `GET_POPULAR`; no branch builds a
request for `MIX`. -/
def requestMethod : WorkloadType → Option Method
  | WorkloadType.PUT_ALL => some Method.POST
  | WorkloadType.GET_ALL => some Method.GET
  | WorkloadType.GET_POPULAR => some Method.GET
  | WorkloadType.MIX => none

/-- The values of `uniform_int_distribution<int> mix_dist(0, 99)`, each once. -/
def mixDraws : List Int :=
  (List.range 100).map Int.ofNat

/-- The number of draws of `mix_dist` for which the mixed workload picks a given effective
workload. -/
def mixCount (w : WorkloadType) : Nat :=
  (mixDraws.filter (fun r => decide (eff_workload WorkloadType.MIX r = w))).length

/-- The number of draws of `mix_dist` for which the mixed workload sends a given method. -/
def mixMethodCount (m : Method) : Nat :=
  (mixDraws.filter
    (fun r => decide (requestMethod (eff_workload WorkloadType.MIX r) = some m))).length

/-- The call `s.find(pat)` of `std::string`: the first position at which `pat` occurs in `s`,
`none` standing for `npos`. -/
def str_find (pat : List Char) : List Char → Option Nat
  | [] => if pat.isPrefixOf [] = true then some 0 else none
  | c :: t => if pat.isPrefixOf (c :: t) = true then some 0 else (str_find pat t).map (· + 1)

/-- The call `s.substr(pos, len)` of `std::string`. -/
def substr (s : List Char) (pos len : Nat) : List Char :=
  (s.drop pos).take len

/-- The function `is_success_response` (loadgen.cpp:81-87). -/
def is_success_response (resp : List Char) : Bool :=
  match str_find "\r\n".toList resp with
  | none => false
  | some pos =>
    (str_find "HTTP/1.1 2".toList (substr resp 0 pos) == some 0) ||
    (str_find "HTTP/1.0 2".toList (substr resp 0 pos) == some 0)

/-- The words of the specification: `line` is the text of `resp` before its first CRLF. -/
def TextBeforeFirstCRLF (resp line : List Char) : Prop :=
  (∃ rest, resp = line ++ "\r\n".toList ++ rest) ∧
  ∀ l2 r2, resp = l2 ++ "\r\n".toList ++ r2 → line.length ≤ l2.length

/-- The words of the specification: the status line indicates a 2xx outcome. -/
def Is2xxStatusLine (line : List Char) : Prop :=
  "HTTP/1.1 2".toList <+: line ∨ "HTTP/1.0 2".toList <+: line

/-- The structure `ThreadStats` (loadgen.cpp:26-31).  The three counters are `uint64_t`;
`F` stands for `long double`, whose arithmetic is left abstract. -/
structure ThreadStats (F : Type) where
  requests : Nat
  successes : Nat
  errors : Nat
  total_latency_ns : F

/-- What the environment does to one iteration of the loop of `client_thread_func`
(loadgen.cpp:150-164): the connection fails; or it is made and `write_all` fails, so that
`read_response` is not called and `resp` stays empty; or the request is written and
`read_response` returns `readOk` with `resp`.  `ns` is the measured duration. -/
inductive Attempt where
  | connectFailed
  | writeFailed (ns : Int)
  | answered (readOk : Bool) (resp : List Char) (ns : Int)
deriving DecidableEq, Repr

/-- The increment `x++` of a `uint64_t`. -/
def incr64 (x : Nat) : Nat :=
  (x + 1) % 2 ^ 64

/-- Lines 166-170 of loadgen.cpp: the bookkeeping of an iteration whose connection was made,
with `ok`, `resp` and `ns` as computed before; `addNs` is `+=` on `long double`. -/
def record {F : Type} (addNs : F → Int → F) (stats : ThreadStats F) (ok : Bool)
    (resp : List Char) (ns : Int) : ThreadStats F :=
  let s1 : ThreadStats F :=
    { stats with requests := incr64 stats.requests,
                 total_latency_ns := addNs stats.total_latency_ns ns }
  if (!ok || !is_success_response resp) = true then { s1 with errors := incr64 s1.errors }
  else { s1 with successes := incr64 s1.successes }

/-- One iteration of the loop of `client_thread_func` on the statistics (loadgen.cpp:150-170). -/
def iteration {F : Type} (addNs : F → Int → F) (stats : ThreadStats F) :
    Attempt → ThreadStats F
  | Attempt.connectFailed => { stats with errors := incr64 stats.errors }
  | Attempt.writeFailed ns => record addNs stats false [] ns
  | Attempt.answered readOk resp ns => record addNs stats readOk resp ns

/-- The statistics after the iterations of the loop, from the initial `ThreadStats` whose
counters are 0 and whose latency is `zero`. -/
def client_thread_func {F : Type} (addNs : F → Int → F) (zero : F) (attempts : List Attempt) :
    ThreadStats F :=
  attempts.foldl (iteration addNs)
    { requests := 0, successes := 0, errors := 0, total_latency_ns := zero }

/-- The number of iterations whose connection failed. -/
def connectFailures (attempts : List Attempt) : Nat :=
  (attempts.filter (fun a => decide (a = Attempt.connectFailed))).length

/-- A run of three iterations: a failed connection, a failed write, a 2xx answer. -/
def demoAttempts : List Attempt :=
  [Attempt.connectFailed, Attempt.writeFailed 5,
    Attempt.answered true "HTTP/1.1 200 OK\r\n\r\nv".toList 7]

/-! ## Container lemmas -/

theorem lookup_eq_some_iff_mem (m : List (String × Nat)) (k : String) (it : Nat)
    (hnd : (m.map Prod.fst).Nodup) : m.lookup k = some it ↔ (k, it) ∈ m := by
  induction m with
  | nil => simp
  | cons p m ih =>
    obtain ⟨k1, i1⟩ := p
    simp only [List.map_cons, List.nodup_cons] at hnd
    rw [List.lookup_cons]
    by_cases hk : k = k1
    · subst hk
      simp only [beq_self_eq_true, List.mem_cons, Prod.mk.injEq, true_and, Option.some.injEq]
      constructor
      · intro h; exact Or.inl h.symm
      · rintro (h | h)
        · exact h.symm
        · exact absurd (List.mem_map_of_mem Prod.fst h) hnd.1
    · have hb : (k == k1) = false := by simpa using hk
      simp only [hb, List.mem_cons, Prod.mk.injEq, hk, false_and, false_or]
      exact ih hnd.2

theorem lookup_eq_none_iff_not_mem (m : List (String × Nat)) (k : String) :
    m.lookup k = none ↔ k ∉ m.map Prod.fst := by
  induction m with
  | nil => simp
  | cons p m ih =>
    obtain ⟨k1, i1⟩ := p
    rw [List.lookup_cons]
    by_cases hk : k = k1
    · subst hk; simp
    · have hb : (k == k1) = false := by simpa using hk
      simp only [hb, List.map_cons, List.mem_cons, hk, false_or]
      exact ih

theorem lt_freshAddr (order : List Node) (n : Node) (h : n ∈ order) :
    n.addr < freshAddr order := by
  unfold freshAddr
  induction order with
  | nil => simp at h
  | cons m order ih =>
    simp only [List.map_cons, List.foldr_cons]
    rcases List.mem_cons.1 h with rfl | h
    · omega
    · have := ih h
      omega

theorem handle_map_fst (order : List Node) :
    (order.map Node.handle).map Prod.fst = order.map Node.first := by
  simp [Node.handle, Function.comp_def]

theorem WF.map_keys_nodup {c : LRUCache} (h : WF c) : (c.map_.map Prod.fst).Nodup := by
  have hp := h.index_perm.map Prod.fst
  rw [handle_map_fst] at hp
  exact hp.nodup_iff.2 h.key_nodup

theorem WF.mapFind_eq_some {c : LRUCache} (h : WF c) (k : String) (it : Nat) :
    mapFind c.map_ k = some it ↔ ∃ n ∈ c.order_, n.first = k ∧ n.addr = it := by
  unfold mapFind
  rw [lookup_eq_some_iff_mem _ _ _ h.map_keys_nodup, h.index_perm.mem_iff]
  simp only [List.mem_map, Node.handle, Prod.mk.injEq]

theorem WF.mapFind_eq_none {c : LRUCache} (h : WF c) (k : String) :
    mapFind c.map_ k = none ↔ k ∉ c.keys := by
  unfold mapFind LRUCache.keys
  rw [lookup_eq_none_iff_not_mem, ← handle_map_fst]
  constructor
  · intro hn hm; exact hn ((h.index_perm.map Prod.fst).mem_iff.2 hm)
  · intro hn hm; exact hn ((h.index_perm.map Prod.fst).mem_iff.1 hm)

/-- The shape of the recency order around the node the key index gives for a key. -/
theorem WF.split {c : LRUCache} (h : WF c) (k : String) (it : Nat)
    (hf : mapFind c.map_ k = some it) :
    ∃ l1 n l2, c.order_ = l1 ++ n :: l2 ∧ n.first = k ∧ n.addr = it ∧
      (∀ m ∈ l1 ++ l2, m.addr ≠ it) ∧ (∀ m ∈ l1 ++ l2, m.first ≠ k) := by
  obtain ⟨n, hn, h1, h2⟩ := (h.mapFind_eq_some k it).1 hf
  obtain ⟨l1, l2, hl⟩ := List.append_of_mem hn
  refine ⟨l1, n, l2, hl, h1, h2, ?_, ?_⟩
  · have hnd := h.addr_nodup
    rw [hl] at hnd
    have hnd2 := (List.perm_middle.map Node.addr).nodup_iff.1 hnd
    simp only [List.map_cons, List.nodup_cons, List.mem_map, not_exists, not_and] at hnd2
    intro m hm hma
    exact hnd2.1 m hm (hma.trans h2.symm)
  · have hnd := h.key_nodup
    rw [hl] at hnd
    have hnd2 := (List.perm_middle.map Node.first).nodup_iff.1 hnd
    simp only [List.map_cons, List.nodup_cons, List.mem_map, not_exists, not_and] at hnd2
    intro m hm hma
    exact hnd2.1 m hm (hma.trans h1.symm)

theorem deref_split (l1 l2 : List Node) (n : Node) (it : Nat) (hn : n.addr = it)
    (h1 : ∀ m ∈ l1 ++ l2, m.addr ≠ it) : deref (l1 ++ n :: l2) it = some n := by
  unfold deref
  rw [List.find?_append]
  have : l1.find? (fun m => decide (m.addr = it)) = none := by
    rw [List.find?_eq_none]
    intro m hm
    simpa using h1 m (List.mem_append_left _ hm)
  simp [this, hn]

theorem eraseP_split (l1 l2 : List Node) (n : Node) (it : Nat) (hn : n.addr = it)
    (h1 : ∀ m ∈ l1 ++ l2, m.addr ≠ it) :
    (l1 ++ n :: l2).eraseP (fun m => m.addr = it) = l1 ++ l2 := by
  rw [List.eraseP_append_right]
  · simp [hn]
  · intro m hm
    simpa using h1 m (List.mem_append_left _ hm)

theorem assignSecond_split (l1 l2 : List Node) (n : Node) (it : Nat) (val : String)
    (hn : n.addr = it) (h1 : ∀ m ∈ l1 ++ l2, m.addr ≠ it) :
    assignSecond (l1 ++ n :: l2) it val = l1 ++ { n with second := val } :: l2 := by
  have hid : ∀ l : List Node, (∀ m ∈ l, m.addr ≠ it) →
      l.map (fun n => if n.addr = it then { n with second := val } else n) = l := by
    intro l hl
    induction l with
    | nil => rfl
    | cons a l ih =>
      simp only [List.map_cons, hl a (List.mem_cons_self _ _), if_false]
      rw [ih (fun m hm => hl m (List.mem_cons_of_mem _ hm))]
  unfold assignSecond
  rw [List.map_append, List.map_cons, hid l1 (fun m hm => h1 m (List.mem_append_left _ hm)),
    hid l2 (fun m hm => h1 m (List.mem_append_right _ hm)), if_pos hn]

theorem splice_split (l1 l2 : List Node) (n : Node) (it : Nat) (hn : n.addr = it)
    (h1 : ∀ m ∈ l1 ++ l2, m.addr ≠ it) : splice (l1 ++ n :: l2) it = n :: (l1 ++ l2) := by
  unfold splice
  rw [deref_split l1 l2 n it hn h1, eraseP_split l1 l2 n it hn h1]

/-! ## Preservation of the representation invariant -/

theorem WF_new (capacity : Nat) : WF (LRUCache.new capacity) := by
  refine ⟨?_, ?_, ?_, ?_, ?_⟩
  · show 1 ≤ (if capacity = 0 then 1 else capacity)
    split <;> omega
  · intro n hn; simp [LRUCache.new] at hn
  · simp [LRUCache.new]
  · simp [LRUCache.new]
  · simp [LRUCache.new]

/-- Moving a node to the front, its value possibly replaced, keeps the invariant. -/
theorem WF_move {c : LRUCache} (h : WF c) (l1 l2 : List Node) (n : Node) (val : String)
    (ho : c.order_ = l1 ++ n :: l2) :
    WF { c with order_ := { n with second := val } :: (l1 ++ l2) } := by
  have hp : (l1 ++ n :: l2).Perm (n :: (l1 ++ l2)) := List.perm_middle
  refine ⟨h.cap_pos, ?_, ?_, ?_, ?_⟩
  · intro m hm
    rcases List.mem_cons.1 hm with rfl | hm
    · exact h.addr_pos n (by rw [ho]; simp)
    · exact h.addr_pos m (by rw [ho]; exact hp.mem_iff.2 (List.mem_cons_of_mem _ hm))
  · have := h.addr_nodup
    rw [ho] at this
    exact (hp.map Node.addr).nodup_iff.1 this
  · have := h.key_nodup
    rw [ho] at this
    exact (hp.map Node.first).nodup_iff.1 this
  · have := h.index_perm
    rw [ho] at this
    exact this.trans (hp.map Node.handle)

/-- Unlinking a node and erasing its key from the index keeps the invariant. -/
theorem WF_remove {c : LRUCache} (h : WF c) (l1 l2 : List Node) (n : Node)
    (ho : c.order_ = l1 ++ n :: l2) :
    WF { c with order_ := l1 ++ l2, map_ := mapErase c.map_ n.first } := by
  have hs : (l1 ++ l2).Sublist (l1 ++ n :: l2) :=
    List.Sublist.append_left (List.sublist_cons_self n l2) l1
  have hk : ∀ m ∈ l1 ++ l2, m.first ≠ n.first := by
    have hnd := h.key_nodup
    rw [ho] at hnd
    have hnd2 := (List.perm_middle.map Node.first).nodup_iff.1 hnd
    simp only [List.map_cons, List.nodup_cons, List.mem_map, not_exists, not_and] at hnd2
    intro m hm
    exact hnd2.1 m hm
  refine ⟨h.cap_pos, ?_, ?_, ?_, ?_⟩
  · intro m hm
    exact h.addr_pos m (by rw [ho]; exact hs.subset hm)
  · have := h.addr_nodup
    rw [ho] at this
    exact this.sublist (hs.map Node.addr)
  · have := h.key_nodup
    rw [ho] at this
    exact this.sublist (hs.map Node.first)
  · have hp := h.index_perm
    rw [ho] at hp
    have hp2 := hp.filter (fun p => decide (p.1 ≠ n.first))
    have hf : ∀ l : List Node, (∀ m ∈ l, m.first ≠ n.first) →
        (l.map Node.handle).filter (fun p => decide (p.1 ≠ n.first)) = l.map Node.handle := by
      intro l hl
      rw [List.filter_eq_self]
      intro p hp
      obtain ⟨m, hm, rfl⟩ := List.mem_map.1 hp
      simpa [Node.handle] using hl m hm
    rw [List.map_append, List.map_cons, List.filter_append, List.filter_cons,
      hf l1 (fun m hm => hk m (List.mem_append_left _ hm)),
      hf l2 (fun m hm => hk m (List.mem_append_right _ hm))] at hp2
    simp only [Node.handle, ne_eq, not_true_eq_false, decide_False, Bool.false_eq_true,
      if_false] at hp2
    show (mapErase c.map_ n.first).Perm ((l1 ++ l2).map Node.handle)
    rw [List.map_append]
    exact hp2

/-- Linking a new node for a key that is not resident keeps the invariant. -/
theorem WF_insert {c : LRUCache} (h : WF c) (key val : String) (hk : key ∉ c.keys) :
    WF { c with order_ := emplaceFront c.order_ key val,
                map_ := (key, freshAddr c.order_) :: c.map_ } := by
  refine ⟨h.cap_pos, ?_, ?_, ?_, ?_⟩
  · intro m hm
    rcases List.mem_cons.1 hm with rfl | hm
    · show 1 ≤ freshAddr c.order_
      unfold freshAddr; omega
    · exact h.addr_pos m hm
  · show ((emplaceFront c.order_ key val).map Node.addr).Nodup
    simp only [emplaceFront, List.map_cons, List.nodup_cons, List.mem_map, not_exists, not_and]
    refine ⟨?_, h.addr_nodup⟩
    intro m hm he
    have := lt_freshAddr c.order_ m hm
    omega
  · show ((emplaceFront c.order_ key val).map Node.first).Nodup
    simp only [emplaceFront, List.map_cons, List.nodup_cons]
    exact ⟨hk, h.key_nodup⟩
  · show ((key, freshAddr c.order_) :: c.map_).Perm ((emplaceFront c.order_ key val).map Node.handle)
    simp only [emplaceFront, List.map_cons, Node.handle]
    exact List.Perm.cons _ h.index_perm

/-! ## What each method does to a well-formed state -/

theorem get_absent (c : LRUCache) (k out : String) (hf : mapFind c.map_ k = none) :
    c.get k out = (false, out, c) := by
  unfold LRUCache.get
  rw [hf]

theorem get_found (c : LRUCache) (k out : String) (it : Nat) (l1 l2 : List Node) (n : Node)
    (hf : mapFind c.map_ k = some it) (ho : c.order_ = l1 ++ n :: l2) (hn : n.addr = it)
    (h1 : ∀ m ∈ l1 ++ l2, m.addr ≠ it) :
    c.get k out = (true, n.second, { c with order_ := n :: (l1 ++ l2) }) := by
  unfold LRUCache.get
  rw [hf]
  simp only [ho, splice_split l1 l2 n it hn h1]
  have := deref_split [] (l1 ++ l2) n it hn (by simpa using h1)
  simp only [List.nil_append] at this
  rw [this]

theorem set_found (c : LRUCache) (k val : String) (it : Nat) (l1 l2 : List Node) (n : Node)
    (hf : mapFind c.map_ k = some it) (ho : c.order_ = l1 ++ n :: l2) (hn : n.addr = it)
    (h1 : ∀ m ∈ l1 ++ l2, m.addr ≠ it) :
    c.set k val = { c with order_ := { n with second := val } :: (l1 ++ l2) } := by
  unfold LRUCache.set
  rw [hf]
  simp only [ho, assignSecond_split l1 l2 n it val hn h1]
  rw [splice_split l1 l2 { n with second := val } it hn h1]

theorem set_new_room (c : LRUCache) (k val : String) (hf : mapFind c.map_ k = none)
    (hc : c.map_.length + 1 ≤ c.cap_) :
    c.set k val = { c with order_ := emplaceFront c.order_ k val,
                           map_ := (k, freshAddr c.order_) :: c.map_ } := by
  unfold LRUCache.set
  rw [hf]
  have hm : mapAssign c.map_ k (listBegin (emplaceFront c.order_ k val))
      = (k, freshAddr c.order_) :: c.map_ := by
    unfold mapAssign
    rw [hf]
    rfl
  simp only [hm, List.length_cons]
  rw [if_neg (by omega)]

theorem set_new_full (c : LRUCache) (k val : String) (l : List Node) (b : Node)
    (hf : mapFind c.map_ k = none) (hc : c.cap_ < c.map_.length + 1)
    (hl : emplaceFront c.order_ k val = l ++ [b]) :
    c.set k val = { c with order_ := l,
                           map_ := mapErase ((k, freshAddr c.order_) :: c.map_) b.first } := by
  unfold LRUCache.set
  rw [hf]
  have hm : mapAssign c.map_ k (listBegin (emplaceFront c.order_ k val))
      = (k, freshAddr c.order_) :: c.map_ := by
    unfold mapAssign
    rw [hf]
    rfl
  simp only [hm, List.length_cons]
  rw [if_pos (by omega), hl]
  simp

theorem erase_absent (c : LRUCache) (k : String) (hf : mapFind c.map_ k = none) :
    c.erase k = c := by
  unfold LRUCache.erase
  rw [hf]

theorem erase_found (c : LRUCache) (k : String) (it : Nat) (l1 l2 : List Node) (n : Node)
    (hf : mapFind c.map_ k = some it) (ho : c.order_ = l1 ++ n :: l2) (hn : n.addr = it)
    (h1 : ∀ m ∈ l1 ++ l2, m.addr ≠ it) :
    c.erase k = { c with order_ := l1 ++ l2, map_ := mapErase c.map_ k } := by
  unfold LRUCache.erase
  rw [hf]
  simp only [listErase, ho, eraseP_split l1 l2 n it hn h1]

/-- A non-empty list ends in a last element. -/
theorem exists_snoc (a : Node) (l : List Node) : ∃ l0 b, a :: l = l0 ++ [b] := by
  refine ⟨(a :: l).dropLast, (a :: l).getLast (by simp), ?_⟩
  exact (List.dropLast_append_getLast (by simp)).symm

theorem WF_get {c : LRUCache} (h : WF c) (k out : String) : WF (c.get k out).2.2 := by
  cases hf : mapFind c.map_ k with
  | none => rw [get_absent c k out hf]; exact h
  | some it =>
    obtain ⟨l1, n, l2, ho, _, hn, h1, _⟩ := h.split k it hf
    rw [get_found c k out it l1 l2 n hf ho hn h1]
    exact WF_move h l1 l2 n n.second ho

theorem WF_set {c : LRUCache} (h : WF c) (k val : String) : WF (c.set k val) := by
  cases hf : mapFind c.map_ k with
  | some it =>
    obtain ⟨l1, n, l2, ho, _, hn, h1, _⟩ := h.split k it hf
    rw [set_found c k val it l1 l2 n hf ho hn h1]
    exact WF_move h l1 l2 n val ho
  | none =>
    have hk := (h.mapFind_eq_none k).1 hf
    have hi := WF_insert h k val hk
    by_cases hc : c.map_.length + 1 ≤ c.cap_
    · rw [set_new_room c k val hf hc]; exact hi
    · obtain ⟨l, b, hl⟩ := exists_snoc { addr := freshAddr c.order_, first := k, second := val }
        c.order_
      rw [set_new_full c k val l b hf (by omega) hl]
      have := WF_remove hi l [] b (by simpa using hl)
      simpa using this

theorem WF_erase {c : LRUCache} (h : WF c) (k : String) : WF (c.erase k) := by
  cases hf : mapFind c.map_ k with
  | none => rw [erase_absent c k hf]; exact h
  | some it =>
    obtain ⟨l1, n, l2, ho, hk, hn, h1, _⟩ := h.split k it hf
    rw [erase_found c k it l1 l2 n hf ho hn h1]
    have := WF_remove h l1 l2 n ho
    rw [hk] at this
    exact this

theorem WF_step {c : LRUCache} (h : WF c) (op : Op) : WF (c.step op) := by
  cases op with
  | get k => exact WF_get h k ""
  | set k v => exact WF_set h k v
  | erase k => exact WF_erase h k

theorem WF_run {c : LRUCache} (h : WF c) (ops : List Op) : WF (c.run ops) := by
  induction ops generalizing c with
  | nil => exact h
  | cons op ops ih => exact ih (WF_step h op)

theorem Reachable.wf {c : LRUCache} (h : Reachable c) : WF c := by
  obtain ⟨capacity, ops, rfl⟩ := h
  exact WF_run (WF_new capacity) ops

theorem WF.size_eq {c : LRUCache} (h : WF c) : c.size = c.order_.length := by
  have := h.index_perm.length_eq
  simpa [LRUCache.size] using this

theorem get_cap (c : LRUCache) (k out : String) : (c.get k out).2.2.cap_ = c.cap_ := by
  unfold LRUCache.get
  split <;> rfl

theorem get_map (c : LRUCache) (k out : String) : (c.get k out).2.2.map_ = c.map_ := by
  unfold LRUCache.get
  split <;> rfl

theorem set_cap (c : LRUCache) (k val : String) : (c.set k val).cap_ = c.cap_ := by
  unfold LRUCache.set
  split
  · rfl
  · dsimp only
    split
    · split <;> rfl
    · rfl

theorem erase_cap (c : LRUCache) (k : String) : (c.erase k).cap_ = c.cap_ := by
  unfold LRUCache.erase
  split <;> rfl

theorem step_cap (c : LRUCache) (op : Op) : (c.step op).cap_ = c.cap_ := by
  cases op with
  | get k => exact get_cap c k ""
  | set k v => exact set_cap c k v
  | erase k => exact erase_cap c k

theorem run_cap (c : LRUCache) (ops : List Op) : (c.run ops).cap_ = c.cap_ := by
  induction ops generalizing c with
  | nil => rfl
  | cons op ops ih => exact (ih (c.step op)).trans (step_cap c op)

theorem new_cap (capacity : Nat) : (LRUCache.new capacity).cap_ = max capacity 1 := by
  show (if capacity = 0 then 1 else capacity) = max capacity 1
  split <;> omega

theorem set_size_le {c : LRUCache} (h : WF c) (hs : c.size ≤ c.cap_) (k val : String) :
    (c.set k val).size ≤ c.cap_ := by
  cases hf : mapFind c.map_ k with
  | some it =>
    obtain ⟨l1, n, l2, ho, _, hn, h1, _⟩ := h.split k it hf
    rw [set_found c k val it l1 l2 n hf ho hn h1]
    exact hs
  | none =>
    by_cases hc : c.map_.length + 1 ≤ c.cap_
    · rw [set_new_room c k val hf hc]
      exact hc
    · obtain ⟨l, b, hl⟩ := exists_snoc { addr := freshAddr c.order_, first := k, second := val }
        c.order_
      have hw := WF_set h k val
      have hsz := hw.size_eq
      rw [set_new_full c k val l b hf (by omega) hl] at hsz ⊢
      rw [hsz]
      have hlen := congrArg List.length hl
      simp only [emplaceFront, List.length_cons, List.length_append, List.length_nil] at hlen
      have := h.size_eq
      show l.length ≤ c.cap_
      omega

theorem erase_size_le (c : LRUCache) (k : String) : (c.erase k).size ≤ c.size := by
  unfold LRUCache.erase
  split
  · exact Nat.le_refl _
  · exact List.length_filter_le _ _

theorem step_size_le {c : LRUCache} (h : WF c) (hs : c.size ≤ c.cap_) (op : Op) :
    (c.step op).size ≤ (c.step op).cap_ := by
  rw [step_cap]
  cases op with
  | get k => show (c.get k "").2.2.map_.length ≤ c.cap_; rw [get_map]; exact hs
  | set k v => exact set_size_le h hs k v
  | erase k => exact Nat.le_trans (erase_size_le c k) hs

theorem run_size_le {c : LRUCache} (h : WF c) (hs : c.size ≤ c.cap_) (ops : List Op) :
    (c.run ops).size ≤ (c.run ops).cap_ := by
  induction ops generalizing c with
  | nil => exact hs
  | cons op ops ih => exact ih (WF_step h op) (step_size_le h hs op)

theorem Reachable.size_le {c : LRUCache} (h : Reachable c) : c.size ≤ c.cap_ := by
  obtain ⟨capacity, ops, rfl⟩ := h
  exact run_size_le (WF_new capacity) (Nat.zero_le _) ops

/-! ## The methods on the list of entries -/

theorem WF.contains_iff {c : LRUCache} (h : WF c) (k : String) :
    c.contains k = true ↔ k ∈ c.keys := by
  unfold LRUCache.contains
  cases hf : mapFind c.map_ k with
  | none => simpa using (h.mapFind_eq_none k).1 hf
  | some it =>
    obtain ⟨n, hn, h1, _⟩ := (h.mapFind_eq_some k it).1 hf
    simp only [Option.isSome_some, true_iff]
    exact h1 ▸ List.mem_map_of_mem Node.first hn

theorem WF.contains_eq_false {c : LRUCache} (h : WF c) (k : String) :
    c.contains k = false ↔ k ∉ c.keys := by
  rw [← h.contains_iff k]
  simp

theorem contains_eq_false_iff (c : LRUCache) (k : String) :
    c.contains k = false ↔ mapFind c.map_ k = none := by
  unfold LRUCache.contains
  cases mapFind c.map_ k <;> simp

theorem entries_keys (c : LRUCache) : c.entries.map Prod.fst = c.keys := by
  simp [LRUCache.entries, LRUCache.keys, Node.entry, Function.comp_def]

theorem entries_length (c : LRUCache) : c.entries.length = c.order_.length := by
  simp [LRUCache.entries]

theorem filter_entry_self (l : List Node) (k : String) (h : ∀ m ∈ l, m.first ≠ k) :
    (l.map Node.entry).filter (fun p => decide (p.1 ≠ k)) = l.map Node.entry := by
  rw [List.filter_eq_self]
  intro p hp
  obtain ⟨m, hm, rfl⟩ := List.mem_map.1 hp
  simpa [Node.entry] using h m hm

theorem filter_entry_split (l1 l2 : List Node) (n : Node) (k : String) (hn : n.first = k)
    (h : ∀ m ∈ l1 ++ l2, m.first ≠ k) :
    ((l1 ++ n :: l2).map Node.entry).filter (fun p => decide (p.1 ≠ k))
      = (l1 ++ l2).map Node.entry := by
  rw [List.map_append, List.map_cons, List.filter_append, List.filter_cons,
    filter_entry_self l1 k (fun m hm => h m (List.mem_append_left _ hm)),
    filter_entry_self l2 k (fun m hm => h m (List.mem_append_right _ hm))]
  simp [Node.entry, hn]

theorem lookup_entry_split (l1 l2 : List Node) (n : Node) (k : String) (hn : n.first = k)
    (h : ∀ m ∈ l1 ++ l2, m.first ≠ k) :
    ((l1 ++ n :: l2).map Node.entry).lookup k = some n.second := by
  induction l1 with
  | nil => simp [Node.entry, hn, List.lookup_cons]
  | cons a l1 ih =>
    have ha : a.first ≠ k := h a (by simp)
    have hb : (k == a.first) = false := by simpa using fun e => ha e.symm
    simp only [List.cons_append, List.map_cons, Node.entry, List.lookup_cons, hb]
    exact ih (fun m hm => h m (by
      rcases List.mem_append.1 hm with hm | hm
      · exact List.mem_append_left _ (List.mem_cons_of_mem _ hm)
      · exact List.mem_append_right _ hm))

/-- A `get` of a resident key: found, the stored value, and the entry moved to the front. -/
theorem get_found_spec {c : LRUCache} (h : WF c) (k out : String)
    (hk : c.contains k = true) :
    ∃ v, c.entries.lookup k = some v ∧ (c.get k out).1 = true ∧ (c.get k out).2.1 = v ∧
      (c.get k out).2.2.entries = (k, v) :: c.entries.filter (fun p => decide (p.1 ≠ k)) ∧
      (c.get k out).2.2.map_ = c.map_ ∧
      mapFind c.map_ k = some (listBegin (c.get k out).2.2.order_) := by
  unfold LRUCache.contains at hk
  obtain ⟨it, hf⟩ := Option.isSome_iff_exists.1 hk
  obtain ⟨l1, n, l2, ho, hn1, hn, h1, h2⟩ := h.split k it hf
  rw [get_found c k out it l1 l2 n hf ho hn h1]
  refine ⟨n.second, ?_, rfl, rfl, ?_, rfl, ?_⟩
  rotate_left
  · simp only [LRUCache.entries, ho, List.map_cons]
    rw [filter_entry_split l1 l2 n k hn1 h2]
    simp [Node.entry, hn1]
  · rw [hf]
    simp [listBegin, hn]
  · simp only [LRUCache.entries, ho]
    exact lookup_entry_split l1 l2 n k hn1 h2

/-- The entries after `set`, in each of its three cases. -/
theorem set_entries {c : LRUCache} (h : WF c) (k val : String) :
    (c.set k val).entries =
      if c.contains k = true then (k, val) :: c.entries.filter (fun p => decide (p.1 ≠ k))
      else if c.size < c.cap_ then (k, val) :: c.entries
      else (k, val) :: c.entries.dropLast := by
  cases hf : mapFind c.map_ k with
  | some it =>
    have hc : c.contains k = true := by simp [LRUCache.contains, hf]
    obtain ⟨l1, n, l2, ho, hn1, hn, h1, h2⟩ := h.split k it hf
    rw [set_found c k val it l1 l2 n hf ho hn h1, if_pos hc]
    simp only [LRUCache.entries, ho, List.map_cons]
    rw [filter_entry_split l1 l2 n k hn1 h2]
    simp [Node.entry, hn1]
  | none =>
    have hc : ¬ c.contains k = true := by simp [LRUCache.contains, hf]
    rw [if_neg hc]
    by_cases hs : c.size < c.cap_
    · rw [if_pos hs, set_new_room c k val hf hs]
      rfl
    · rw [if_neg hs]
      have hsz := h.size_eq
      have hcap := h.cap_pos
      have hne : c.order_ ≠ [] := by
        intro he
        rw [he] at hsz
        simp only [List.length_nil] at hsz
        omega
      have hl : emplaceFront c.order_ k val
          = ({ addr := freshAddr c.order_, first := k, second := val } :: c.order_.dropLast)
            ++ [c.order_.getLast hne] := by
        simp only [emplaceFront, List.cons_append, List.dropLast_append_getLast]
      rw [set_new_full c k val _ _ hf (by unfold LRUCache.size at hs; omega) hl]
      simp [LRUCache.entries, Node.entry, List.map_dropLast]

/-- The entries after `erase`. -/
theorem erase_entries {c : LRUCache} (h : WF c) (k : String) :
    (c.erase k).entries = c.entries.filter (fun p => decide (p.1 ≠ k)) := by
  cases hf : mapFind c.map_ k with
  | none =>
    rw [erase_absent c k hf]
    have hk := (h.mapFind_eq_none k).1 hf
    symm
    exact filter_entry_self c.order_ k (fun m hm e => hk (e ▸ List.mem_map_of_mem Node.first hm))
  | some it =>
    obtain ⟨l1, n, l2, ho, hn1, hn, h1, h2⟩ := h.split k it hf
    rw [erase_found c k it l1 l2 n hf ho hn h1]
    simp only [LRUCache.entries, ho]
    rw [filter_entry_split l1 l2 n k hn1 h2]

theorem WF.entries_keys_nodup {c : LRUCache} (h : WF c) : (c.entries.map Prod.fst).Nodup := by
  rw [entries_keys]
  exact h.key_nodup

theorem WF.size_eq_entries {c : LRUCache} (h : WF c) : c.size = c.entries.length := by
  rw [h.size_eq, entries_length]

theorem WF.contains_iff_entries {c : LRUCache} (h : WF c) (k : String) :
    c.contains k = true ↔ k ∈ c.entries.map Prod.fst := by
  rw [entries_keys]
  exact h.contains_iff k

theorem lookup_cons_ne (l : List (String × String)) (k k1 v : String) (hne : k1 ≠ k) :
    ((k, v) :: l).lookup k1 = l.lookup k1 := by
  have hb : (k1 == k) = false := by simpa using hne
  simp [List.lookup_cons, hb]

theorem lookup_filter_ne (l : List (String × String)) (k k1 : String) (hne : k1 ≠ k) :
    (l.filter (fun p => decide (p.1 ≠ k))).lookup k1 = l.lookup k1 := by
  induction l with
  | nil => rfl
  | cons p l ih =>
    obtain ⟨a, b⟩ := p
    by_cases ha : a = k
    · subst ha
      rw [List.filter_cons_of_neg (by simp), lookup_cons_ne l a k1 b hne]
      exact ih
    · rw [List.filter_cons_of_pos (by simpa using ha)]
      by_cases h1 : k1 = a
      · subst h1; simp [List.lookup_cons]
      · rw [lookup_cons_ne _ a k1 b h1, lookup_cons_ne _ a k1 b h1]
        exact ih

/-! ## Access history -/

theorem run_snoc (c : LRUCache) (ops : List Op) (op : Op) :
    c.run (ops ++ [op]) = (c.run ops).step op := by
  simp [LRUCache.run, List.foldl_append]

theorem accessAt_snoc_lt (c0 : LRUCache) (ops : List Op) (op : Op) (i : Nat)
    (hi : i < ops.length) : accessAt c0 (ops ++ [op]) i = accessAt c0 ops i := by
  unfold accessAt
  rw [List.getElem?_append_left hi, List.take_append_of_le_length (Nat.le_of_lt hi)]

theorem accessAt_snoc_self (c0 : LRUCache) (ops : List Op) (op : Op) :
    accessAt c0 (ops ++ [op]) ops.length = accessed (c0.run ops) op := by
  unfold accessAt
  rw [List.getElem?_append_right (Nat.le_refl _)]
  simp

theorem lastAccess_snoc (c0 : LRUCache) (ops : List Op) (op : Op) (k : String) :
    lastAccess c0 (ops ++ [op]) k =
      if accessed (c0.run ops) op = some k then some ops.length else lastAccess c0 ops k := by
  unfold lastAccess
  rw [List.length_append, List.length_singleton, List.range_succ, List.filter_append]
  have hc : (List.range ops.length).filter
        (fun i => decide (accessAt c0 (ops ++ [op]) i = some k))
      = (List.range ops.length).filter (fun i => decide (accessAt c0 ops i = some k)) := by
    apply List.filter_congr
    intro i hi
    rw [accessAt_snoc_lt c0 ops op i (List.mem_range.1 hi)]
  rw [hc]
  by_cases ha : accessed (c0.run ops) op = some k
  · rw [if_pos ha, List.filter_cons_of_pos (by rw [accessAt_snoc_self]; simpa using ha)]
    simp
  · rw [if_neg ha, List.filter_cons_of_neg (by rw [accessAt_snoc_self]; simpa using ha)]
    simp

theorem lastAccess_lt (c0 : LRUCache) (ops : List Op) (k : String) (i : Nat)
    (h : lastAccess c0 ops k = some i) : i < ops.length := by
  unfold lastAccess at h
  have hm := List.mem_of_getLast?_eq_some h
  exact List.mem_range.1 (List.mem_filter.1 hm).1

theorem stamp_le (c0 : LRUCache) (ops : List Op) (k : String) : stamp c0 ops k ≤ ops.length := by
  unfold stamp
  cases h : lastAccess c0 ops k with
  | none => exact Nat.zero_le _
  | some i => exact lastAccess_lt c0 ops k i h

theorem stamp_snoc (c0 : LRUCache) (ops : List Op) (op : Op) (k : String) :
    stamp c0 (ops ++ [op]) k =
      if accessed (c0.run ops) op = some k then ops.length + 1 else stamp c0 ops k := by
  unfold stamp
  rw [lastAccess_snoc]
  split_ifs <;> rfl

theorem stamp_pos_iff (c0 : LRUCache) (ops : List Op) (k : String) :
    0 < stamp c0 ops k ↔ ∃ i, lastAccess c0 ops k = some i := by
  unfold stamp
  cases lastAccess c0 ops k <;> simp

theorem stamp_lt_iff (c0 : LRUCache) (ops : List Op) (a b : String)
    (ha : 0 < stamp c0 ops a) (hb : 0 < stamp c0 ops b) :
    stamp c0 ops b < stamp c0 ops a ↔
      ∃ i j, lastAccess c0 ops a = some i ∧ lastAccess c0 ops b = some j ∧ j < i := by
  obtain ⟨i, hi⟩ := (stamp_pos_iff c0 ops a).1 ha
  obtain ⟨j, hj⟩ := (stamp_pos_iff c0 ops b).1 hb
  simp [stamp, hi, hj]

theorem stamp_le_iff (c0 : LRUCache) (ops : List Op) (a b : String)
    (ha : 0 < stamp c0 ops a) (hb : 0 < stamp c0 ops b) :
    stamp c0 ops b ≤ stamp c0 ops a ↔
      ∃ i j, lastAccess c0 ops a = some i ∧ lastAccess c0 ops b = some j ∧ j ≤ i := by
  obtain ⟨i, hi⟩ := (stamp_pos_iff c0 ops a).1 ha
  obtain ⟨j, hj⟩ := (stamp_pos_iff c0 ops b).1 hb
  simp [stamp, hi, hj]

theorem keys_of_entries_cons {c : LRUCache} {k v : String} {E : List (String × String)}
    (h : c.entries = (k, v) :: E) : c.keys = k :: E.map Prod.fst := by
  rw [← entries_keys, h, List.map_cons]

/-- One call either accesses nothing and leaves a sublist of the resident keys in place, or
accesses a key and puts it in front of a sublist of the resident keys. -/
theorem step_keys_shape {c : LRUCache} (h : WF c) (op : Op) :
    (accessed c op = none ∧ (c.step op).keys.Sublist c.keys) ∨
    (∃ k X, accessed c op = some k ∧ (c.step op).keys = k :: X ∧ X.Sublist c.keys) := by
  have hfs : ∀ k : String, ((c.entries.filter (fun p => decide (p.1 ≠ k))).map Prod.fst).Sublist
      c.keys := by
    intro k
    rw [← entries_keys]
    exact (List.filter_sublist _).map Prod.fst
  cases op with
  | get k =>
    by_cases hc : c.contains k = true
    · right
      obtain ⟨v, _, _, _, he, _⟩ := get_found_spec h k "" hc
      exact ⟨k, _, by simp [accessed, hc], keys_of_entries_cons he, hfs k⟩
    · left
      have hf : mapFind c.map_ k = none := (contains_eq_false_iff c k).1 (by simpa using hc)
      refine ⟨by simp [accessed, hc], ?_⟩
      show (c.get k "").2.2.keys.Sublist c.keys
      rw [get_absent c k "" hf]
  | set k v =>
    right
    have he := set_entries h k v
    split_ifs at he
    · exact ⟨k, _, rfl, keys_of_entries_cons he, hfs k⟩
    · exact ⟨k, _, rfl, keys_of_entries_cons he, by rw [entries_keys]⟩
    · exact ⟨k, _, rfl, keys_of_entries_cons he, by
        rw [← entries_keys]; exact (List.dropLast_sublist _).map Prod.fst⟩
  | erase k =>
    left
    refine ⟨rfl, ?_⟩
    show (c.erase k).keys.Sublist c.keys
    rw [← entries_keys (c.erase k), erase_entries h k]
    exact hfs k

/-- The recency order is sorted by decreasing time stamp, and every resident key has one. -/
theorem recency_sorted (capacity : Nat) (ops : List Op) :
    ((LRUCache.new capacity).run ops).keys.Pairwise
      (fun a b => stamp (LRUCache.new capacity) ops b < stamp (LRUCache.new capacity) ops a) ∧
    ∀ k ∈ ((LRUCache.new capacity).run ops).keys, 0 < stamp (LRUCache.new capacity) ops k := by
  induction ops using List.reverseRecOn with
  | nil => simp [LRUCache.run, LRUCache.new, LRUCache.keys]
  | append_singleton ops op ih =>
    have h : WF ((LRUCache.new capacity).run ops) := WF_run (WF_new capacity) ops
    have hw := WF_step h op
    rw [run_snoc]
    rcases step_keys_shape h op with ⟨ha, hsub⟩ | ⟨k, X, ha, hk, hsub⟩
    · have hst : ∀ a, stamp (LRUCache.new capacity) (ops ++ [op]) a
          = stamp (LRUCache.new capacity) ops a := by
        intro a
        rw [stamp_snoc, if_neg (by rw [ha]; simp)]
      simp only [hst]
      exact ⟨ih.1.sublist hsub, fun a ha1 => ih.2 a (hsub.subset ha1)⟩
    · have hnd : (k :: X).Nodup := hk ▸ hw.key_nodup
      have hkX : k ∉ X := (List.nodup_cons.1 hnd).1
      have hstk : stamp (LRUCache.new capacity) (ops ++ [op]) k = ops.length + 1 := by
        rw [stamp_snoc, if_pos ha]
      have hst : ∀ a ∈ X, stamp (LRUCache.new capacity) (ops ++ [op]) a
          = stamp (LRUCache.new capacity) ops a := by
        intro a haX
        rw [stamp_snoc, if_neg]
        rw [ha]
        intro e
        exact hkX ((Option.some.inj e) ▸ haX)
      rw [hk]
      constructor
      · rw [List.pairwise_cons]
        constructor
        · intro b hb
          rw [hstk, hst b hb]
          have := stamp_le (LRUCache.new capacity) ops b
          omega
        · refine (ih.1.sublist hsub).imp_of_mem ?_
          intro a b ha1 hb1 hab
          rw [hst a ha1, hst b hb1]
          exact hab
      · intro a ha1
        rcases List.mem_cons.1 ha1 with rfl | ha1
        · rw [hstk]; omega
        · rw [hst a ha1]
          exact ih.2 a (hsub.subset ha1)

/-- A key that `set` removes from the recency order was its last key. -/
theorem evicted_is_last {c : LRUCache} (h : WF c) (k v t : String) (ht : t ∈ c.keys)
    (hn : t ∉ (c.set k v).keys) : ∃ X, c.keys = X ++ [t] := by
  have he := set_entries h k v
  have hmem : ∀ E : List (String × String), t ∈ E.map Prod.fst →
      (c.set k v).entries = (k, v) :: E → False := by
    intro E hE he1
    exact hn (by rw [keys_of_entries_cons he1]; exact List.mem_cons_of_mem _ hE)
  split_ifs at he with h1 h2
  · exfalso
    by_cases htk : t = k
    · exact hn (by rw [keys_of_entries_cons he, htk]; exact List.mem_cons_self _ _)
    · refine hmem _ ?_ he
      rw [← entries_keys] at ht
      obtain ⟨p, hp, rfl⟩ := List.mem_map.1 ht
      exact List.mem_map_of_mem Prod.fst (List.mem_filter.2 ⟨hp, by simpa using htk⟩)
  · exfalso
    exact hmem _ (by rw [entries_keys]; exact ht) he
  · have hne : c.keys ≠ [] := List.ne_nil_of_mem ht
    refine ⟨c.keys.dropLast, ?_⟩
    have hs := List.dropLast_append_getLast hne
    have hmem2 : t ∈ c.keys.dropLast ++ [c.keys.getLast hne] := by rw [hs]; exact ht
    rcases List.mem_append.1 hmem2 with hm | hm
    · exfalso
      refine hmem _ ?_ he
      rw [List.map_dropLast, entries_keys]
      exact hm
    · rw [List.mem_singleton] at hm
      rw [hm]
      exact hs.symm

/-- A `set` of a new key into a full cache: the tail goes, nothing else does. -/
theorem set_full_spec {c : LRUCache} (h : WF c) (k v : String)
    (hfull : ¬ c.size < c.cap_) (hk : c.contains k = false) :
    ∃ t, c.entries.getLast? = some t ∧
      (c.set k v).entries = (k, v) :: c.entries.dropLast ∧
      t ∉ (c.set k v).entries ∧
      (c.set k v).contains t.1 = false ∧
      (∀ k1, k1 ≠ t.1 → c.contains k1 = true → (c.set k v).contains k1 = true) ∧
      (c.set k v).contains k = true ∧
      (c.set k v).size = c.size := by
  have hw := WF_set h k v
  have he : (c.set k v).entries = (k, v) :: c.entries.dropLast := by
    rw [set_entries h k v, if_neg (by simp [hk]), if_neg hfull]
  have hlen : c.size = c.entries.length := h.size_eq_entries
  have hne : c.entries ≠ [] := by
    intro e
    rw [e] at hlen
    have := h.cap_pos
    simp only [List.length_nil] at hlen
    omega
  have hsnoc : c.entries.dropLast ++ [c.entries.getLast hne] = c.entries :=
    List.dropLast_append_getLast hne
  have hnd := h.entries_keys_nodup
  rw [← hsnoc, List.map_append, List.nodup_append] at hnd
  have htk : (c.entries.getLast hne).1 ∈ c.entries.map Prod.fst :=
    List.mem_map_of_mem Prod.fst (List.getLast_mem hne)
  have hkn : k ∉ c.entries.map Prod.fst := by
    rw [← h.contains_iff_entries]; simp [hk]
  have htne : (c.entries.getLast hne).1 ≠ k := fun e => hkn (e ▸ htk)
  have htd : (c.entries.getLast hne).1 ∉ c.entries.dropLast.map Prod.fst := by
    intro hm
    exact hnd.2.2 hm (by simp) 
  have hnew : ∀ k1, (c.set k v).contains k1 = true
      ↔ k1 = k ∨ k1 ∈ c.entries.dropLast.map Prod.fst := by
    intro k1
    rw [hw.contains_iff_entries, he, List.map_cons, List.mem_cons]
  refine ⟨c.entries.getLast hne, List.getLast?_eq_getLast _ hne, he, ?_, ?_, ?_, ?_, ?_⟩
  · intro hm
    have := List.mem_map_of_mem Prod.fst hm
    rw [he, List.map_cons, List.mem_cons] at this
    rcases this with e | hm2
    · exact htne e
    · exact htd hm2
  · rw [Bool.eq_false_iff]
    intro hc
    rcases (hnew _).1 hc with e | hm2
    · exact htne e
    · exact htd hm2
  · intro k1 hne1 hc1
    rw [hnew]
    right
    have hm := (h.contains_iff_entries k1).1 hc1
    rw [← hsnoc, List.map_append, List.mem_append] at hm
    rcases hm with hm | hm
    · exact hm
    · exact absurd (by simpa using hm) hne1
  · exact (hnew k).2 (Or.inl rfl)
  · rw [hw.size_eq_entries, he, List.length_cons, List.length_dropLast]
    have := List.length_pos.2 hne
    omega

theorem set_found_map {c : LRUCache} (h : WF c) (k v : String) (hk : c.contains k = true) :
    (c.set k v).map_ = c.map_ := by
  unfold LRUCache.contains at hk
  obtain ⟨it, hf⟩ := Option.isSome_iff_exists.1 hk
  obtain ⟨l1, n, l2, ho, _, hn, h1, _⟩ := h.split k it hf
  rw [set_found c k v it l1 l2 n hf ho hn h1]

/-! ## The claims -/

/-- C1: for every requested capacity (0 included) and every sequence of get/set/erase calls on
a freshly constructed cache, after each call of the sequence (that is, after every prefix
`ops.take n`) `size()` is at most `max requested 1`. -/
theorem C1_size_le_capacity (requested : Nat) (ops : List Op) (n : Nat) :
    ((LRUCache.new requested).run (ops.take n)).size ≤ max requested 1 := by
  have h := run_size_le (WF_new requested) (Nat.zero_le _) (ops.take n)
  rw [run_cap, new_cap] at h
  exact h

/-- C2: in every state reachable from construction by get/set/erase, no key occurs twice in
the recency order; a key is in the key index exactly when an entry with that key is in the
order; the iterator the index holds for a key designates one position of the order, the only
position with that node and the only position with that key; and `size()` is the length of
the order. -/
theorem C2_index_order_consistent (capacity : Nat) (ops : List Op) :
    ((LRUCache.new capacity).run ops).keys.Nodup ∧
    (∀ k, (mapFind ((LRUCache.new capacity).run ops).map_ k).isSome
        ↔ ∃ n ∈ ((LRUCache.new capacity).run ops).order_, n.first = k) ∧
    (∀ k it, mapFind ((LRUCache.new capacity).run ops).map_ k = some it →
        ∃ (i : Nat) (n : Node), ((LRUCache.new capacity).run ops).order_[i]? = some n ∧
          n.first = k ∧ n.addr = it ∧
          (∀ (j : Nat) (m : Node), ((LRUCache.new capacity).run ops).order_[j]? = some m →
            (m.addr = it ∨ m.first = k) → j = i)) ∧
    ((LRUCache.new capacity).run ops).size = ((LRUCache.new capacity).run ops).order_.length := by
  have h : WF ((LRUCache.new capacity).run ops) := WF_run (WF_new capacity) ops
  generalize (LRUCache.new capacity).run ops = c at h
  refine ⟨h.key_nodup, ?_, ?_, h.size_eq⟩
  · intro k
    rw [Option.isSome_iff_exists]
    constructor
    · rintro ⟨it, hit⟩
      obtain ⟨n, hn, h1, _⟩ := (h.mapFind_eq_some k it).1 hit
      exact ⟨n, hn, h1⟩
    · rintro ⟨n, hn, h1⟩
      exact ⟨n.addr, (h.mapFind_eq_some k n.addr).2 ⟨n, hn, h1, rfl⟩⟩
  · intro k it hf
    obtain ⟨l1, n, l2, ho, hk, hn, h1, h2⟩ := h.split k it hf
    refine ⟨l1.length, n, ?_, hk, hn, ?_⟩
    · rw [ho, List.getElem?_append_right (Nat.le_refl _)]
      simp
    · intro j m hj hm
      rw [ho] at hj
      by_contra hne
      have hmem : m ∈ l1 ++ l2 := by
        rcases Nat.lt_or_gt_of_ne hne with hlt | hgt
        · rw [List.getElem?_append_left hlt] at hj
          exact List.mem_append_left _ (List.getElem?_mem hj)
        · rw [List.getElem?_append_right (Nat.le_of_lt hgt)] at hj
          obtain ⟨d, hd⟩ : ∃ d, j - l1.length = d + 1 := ⟨j - l1.length - 1, by omega⟩
          rw [hd, List.getElem?_cons_succ] at hj
          exact List.mem_append_right _ (List.getElem?_mem hj)
      rcases hm with hm | hm
      · exact h1 m hmem hm
      · exact h2 m hmem hm

/-- C3: in a reachable state whose size equals the capacity, `set(k, v)` of a key that is not
in the cache evicts the tail `t` of the recency order and nothing else: the new order is
`(k, v)` followed by the old order without its last entry (same values, same order), `t` is
gone from the order and from the key index, every other resident key is still in the index,
and `size()` is still the capacity. -/
theorem C3_set_full_evicts_tail (c : LRUCache) (hr : Reachable c) (k v : String)
    (hfull : c.size = c.cap_) (hk : c.contains k = false) :
    ∃ t, c.entries.getLast? = some t ∧
      (c.set k v).entries = (k, v) :: c.entries.dropLast ∧
      t ∉ (c.set k v).entries ∧
      (c.set k v).contains t.1 = false ∧
      (∀ k1, k1 ≠ t.1 → c.contains k1 = true → (c.set k v).contains k1 = true) ∧
      (c.set k v).contains k = true ∧
      (c.set k v).size = c.cap_ ∧ (c.set k v).cap_ = c.cap_ := by
  obtain ⟨t, h1, h2, h3, h4, h5, h6, h7⟩ := set_full_spec hr.wf k v (by omega) hk
  exact ⟨t, h1, h2, h3, h4, h5, h6, h7.trans hfull, set_cap c k v⟩

/-- The scenario of the specification: with capacity 2 and `b`, `a` resident, `set(c,3)`
evicts `a`. -/
theorem C3_witness :
    Reachable scenarioAB ∧ scenarioAB.size = scenarioAB.cap_ ∧
    scenarioAB.contains "c" = false ∧
    ∃ t, scenarioAB.entries.getLast? = some t ∧
      (scenarioAB.set "c" "3").entries = ("c", "3") :: scenarioAB.entries.dropLast ∧
      t ∉ (scenarioAB.set "c" "3").entries ∧
      (scenarioAB.set "c" "3").contains t.1 = false ∧
      (∀ k1, k1 ≠ t.1 → scenarioAB.contains k1 = true →
        (scenarioAB.set "c" "3").contains k1 = true) ∧
      (scenarioAB.set "c" "3").contains "c" = true ∧
      (scenarioAB.set "c" "3").size = scenarioAB.cap_ ∧
      (scenarioAB.set "c" "3").cap_ = scenarioAB.cap_ :=
  ⟨⟨2, _, rfl⟩, by decide, by decide,
    C3_set_full_evicts_tail scenarioAB ⟨2, _, rfl⟩ "c" "3" (by decide) (by decide)⟩

/-- C4: after any sequence of get/set/erase calls on a freshly constructed cache, every
resident key has a most recent access in the sequence (a `set` of it, or a `get` that found
it); the recency order lists the resident keys by strictly decreasing position of that
access, so the head is the most recently accessed resident key; and a key that a following
`set` evicts is the resident key whose most recent access is the oldest. -/
theorem C4_order_reflects_access_history (capacity : Nat) (ops : List Op) :
    (∀ k ∈ ((LRUCache.new capacity).run ops).keys,
      ∃ i, lastAccess (LRUCache.new capacity) ops k = some i) ∧
    ((LRUCache.new capacity).run ops).keys.Pairwise
      (fun a b => ∃ i j, lastAccess (LRUCache.new capacity) ops a = some i ∧
        lastAccess (LRUCache.new capacity) ops b = some j ∧ j < i) ∧
    (∀ hd, ((LRUCache.new capacity).run ops).keys.head? = some hd →
      ∀ k ∈ ((LRUCache.new capacity).run ops).keys,
        ∃ i j, lastAccess (LRUCache.new capacity) ops hd = some i ∧
          lastAccess (LRUCache.new capacity) ops k = some j ∧ j ≤ i) ∧
    (∀ k v t, t ∈ ((LRUCache.new capacity).run ops).keys →
      t ∉ (((LRUCache.new capacity).run ops).set k v).keys →
      ∀ k1 ∈ ((LRUCache.new capacity).run ops).keys,
        ∃ i j, lastAccess (LRUCache.new capacity) ops k1 = some i ∧
          lastAccess (LRUCache.new capacity) ops t = some j ∧ j ≤ i) := by
  have h : WF ((LRUCache.new capacity).run ops) := WF_run (WF_new capacity) ops
  obtain ⟨hs, hp⟩ := recency_sorted capacity ops
  refine ⟨fun k hk => (stamp_pos_iff _ _ k).1 (hp k hk), ?_, ?_, ?_⟩
  · refine hs.imp_of_mem ?_
    intro a b ha hb hab
    exact (stamp_lt_iff _ _ a b (hp a ha) (hp b hb)).1 hab
  · intro hd hhd k hk
    have hhdm : hd ∈ ((LRUCache.new capacity).run ops).keys := List.mem_of_mem_head? hhd
    refine (stamp_le_iff _ _ hd k (hp hd hhdm) (hp k hk)).1 ?_
    obtain ⟨X, hX⟩ : ∃ X, ((LRUCache.new capacity).run ops).keys = hd :: X := by
      cases hkeys : ((LRUCache.new capacity).run ops).keys with
      | nil => rw [hkeys] at hhd; simp at hhd
      | cons a X =>
        rw [hkeys] at hhd
        simp only [List.head?_cons, Option.some.injEq] at hhd
        exact ⟨X, by rw [hhd]⟩
    rw [hX] at hs hk
    rcases List.mem_cons.1 hk with rfl | hk
    · exact Nat.le_refl _
    · exact Nat.le_of_lt ((List.pairwise_cons.1 hs).1 k hk)
  · intro k v t ht hn k1 hk1
    refine (stamp_le_iff _ _ k1 t (hp k1 hk1) (hp t ht)).1 ?_
    obtain ⟨X, hX⟩ := evicted_is_last h k v t ht hn
    rw [hX] at hs hk1
    rcases List.mem_append.1 hk1 with hk1 | hk1
    · exact Nat.le_of_lt ((List.pairwise_append.1 hs).2.2 k1 hk1 t (by simp))
    · rw [List.mem_singleton.1 hk1]

/-- The second scenario of the specification: after `set(a,1)`, `set(b,2)`, `get(a)` with
capacity 2, `set(c,3)` evicts `b`, whose last access (position 1) is older than that of `a`
(position 2). -/
theorem C4_witness :
    "b" ∈ ((LRUCache.new 2).run scenarioABA).keys ∧
    "b" ∉ (((LRUCache.new 2).run scenarioABA).set "c" "3").keys ∧
    lastAccess (LRUCache.new 2) scenarioABA "a" = some 2 ∧
    lastAccess (LRUCache.new 2) scenarioABA "b" = some 1 ∧
    ∃ i j, lastAccess (LRUCache.new 2) scenarioABA "a" = some i ∧
      lastAccess (LRUCache.new 2) scenarioABA "b" = some j ∧ j ≤ i :=
  ⟨by decide, by decide, by decide, by decide,
    (C4_order_reflects_access_history 2 scenarioABA).2.2.2 "c" "3" "b" (by decide) (by decide)
      "a" (by decide)⟩

/-- C5: in a reachable state, `get(k)` of a key present in the cache returns found, writes to
`out` the value `v` currently stored for `k`, and afterwards the entry `(k, v)` is at the head
of the recency order, where the iterator the key index holds for `k` now points. -/
theorem C5_get_present (c : LRUCache) (hr : Reachable c) (k out : String)
    (hk : c.contains k = true) :
    ∃ v, c.entries.lookup k = some v ∧
      (c.get k out).1 = true ∧ (c.get k out).2.1 = v ∧
      (c.get k out).2.2.entries.head? = some (k, v) ∧
      mapFind (c.get k out).2.2.map_ k = some (listBegin (c.get k out).2.2.order_) := by
  obtain ⟨v, h1, h2, h3, h4, h5, h6⟩ := get_found_spec hr.wf k out hk
  refine ⟨v, h1, h2, h3, ?_, ?_⟩
  · rw [h4]; rfl
  · rw [h5]; exact h6

/-- In the first scenario, `get(a)` finds the value 1 and moves `a` to the head. -/
theorem C5_witness :
    Reachable scenarioAB ∧ scenarioAB.contains "a" = true ∧
    ∃ v, scenarioAB.entries.lookup "a" = some v ∧
      (scenarioAB.get "a" "").1 = true ∧ (scenarioAB.get "a" "").2.1 = v ∧
      (scenarioAB.get "a" "").2.2.entries.head? = some ("a", v) ∧
      mapFind (scenarioAB.get "a" "").2.2.map_ "a"
        = some (listBegin (scenarioAB.get "a" "").2.2.order_) :=
  ⟨⟨2, _, rfl⟩, by decide, C5_get_present scenarioAB ⟨2, _, rfl⟩ "a" "" (by decide)⟩

/-- C6: `get(k)` of a key that is not in the cache returns the not-found signal (`false`,
`out` untouched) and leaves the whole state (capacity, recency order, key index) as it was;
this holds in every state, the reachable ones included. -/
theorem C6_get_absent (c : LRUCache) (k out : String) (hk : c.contains k = false) :
    (c.get k out).1 = false ∧ (c.get k out).2.1 = out ∧ (c.get k out).2.2 = c := by
  rw [get_absent c k out ((contains_eq_false_iff c k).1 hk)]
  exact ⟨rfl, rfl, rfl⟩

/-- In the first scenario, `get(z)` finds nothing and changes nothing. -/
theorem C6_witness :
    scenarioAB.contains "z" = false ∧
    (scenarioAB.get "z" "out").1 = false ∧ (scenarioAB.get "z" "out").2.1 = "out" ∧
    (scenarioAB.get "z" "out").2.2 = scenarioAB :=
  ⟨by decide, C6_get_absent scenarioAB "z" "out" (by decide)⟩

/-- C7: for every requested capacity (0 included), every state reached from construction and
every key and value, after `set(k, v)` the key is in the cache (its own insertion did not
evict it), an immediately following `get(k)` returns found with value `v`, and after it
`(k, v)` is at the head of the recency order. -/
theorem C7_get_after_set (requested : Nat) (ops : List Op) (k v out : String) :
    (((LRUCache.new requested).run ops).set k v).contains k = true ∧
    ((((LRUCache.new requested).run ops).set k v).get k out).1 = true ∧
    ((((LRUCache.new requested).run ops).set k v).get k out).2.1 = v ∧
    ((((LRUCache.new requested).run ops).set k v).get k out).2.2.entries.head? = some (k, v) := by
  have h : WF ((LRUCache.new requested).run ops) := WF_run (WF_new requested) ops
  generalize (LRUCache.new requested).run ops = c at h
  have hw := WF_set h k v
  obtain ⟨E, hE⟩ : ∃ E, (c.set k v).entries = (k, v) :: E := by
    have he := set_entries h k v
    split_ifs at he <;> exact ⟨_, he⟩
  have hc : (c.set k v).contains k = true := by
    rw [hw.contains_iff_entries, hE]
    simp
  obtain ⟨v1, h1, h2, h3, h4, _⟩ := get_found_spec hw k out hc
  have hv : v1 = v := by
    rw [hE] at h1
    simpa [List.lookup_cons] using h1.symm
  subst hv
  refine ⟨hc, h2, h3, ?_⟩
  rw [h4]; rfl

/-- With requested capacity 0 (normalised to 1) and `a` resident, `set(b,2)` then `get(b)`
returns 2. -/
theorem C7_witness :
    (((LRUCache.new 0).run [Op.set "a" "1"]).set "b" "2").contains "b" = true ∧
    ((((LRUCache.new 0).run [Op.set "a" "1"]).set "b" "2").get "b" "").1 = true ∧
    ((((LRUCache.new 0).run [Op.set "a" "1"]).set "b" "2").get "b" "").2.1 = "2" ∧
    ((((LRUCache.new 0).run [Op.set "a" "1"]).set "b" "2").get "b" "").2.2.entries.head?
      = some ("b", "2") :=
  C7_get_after_set 0 [Op.set "a" "1"] "b" "2" ""

/-- C8: in a reachable state with at least two entries, let the resident key `k` be touched,
by a `get(k)` (which finds it) or by `set(k, v)`, giving the state `c1`.  A following
`set(k2, v2)` of a key not in the cache that overflows the capacity does not evict `k`: `k` is
still present with the value it had in `c1` (which is `v` after the `set`, and the value it
had before after the `get`), and the evicted entry is that of another key `t`. -/
theorem C8_touched_key_survives_overflow (c : LRUCache) (hr : Reachable c) (k v out : String)
    (hk : c.contains k = true) (htwo : 2 ≤ c.size)
    (c1 : LRUCache) (ht : c1 = (c.get k out).2.2 ∨ c1 = c.set k v)
    (k2 v2 : String) (hk2 : c1.contains k2 = false) (hov : c1.cap_ < c1.size + 1) :
    ∃ val, c1.entries.lookup k = some val ∧
      (c1 = c.set k v → val = v) ∧
      (c1 = (c.get k out).2.2 → c.entries.lookup k = some val) ∧
      (c1.set k2 v2).entries.lookup k = some val ∧
      (c1.set k2 v2).contains k = true ∧
      ∃ t, t ≠ k ∧ c1.contains t = true ∧ (c1.set k2 v2).contains t = false := by
  have h := hr.wf
  obtain ⟨v0, hv0, _, _, hg, hgm, _⟩ := get_found_spec h k out hk
  have hse : (c.set k v).entries = (k, v) :: c.entries.filter (fun p => decide (p.1 ≠ k)) := by
    rw [set_entries h k v, if_pos hk]
  have hw1 : WF c1 := by
    rcases ht with rfl | rfl
    · exact WF_get h k out
    · exact WF_set h k v
  have hsz : c1.size = c.size := by
    rcases ht with rfl | rfl
    · unfold LRUCache.size; rw [hgm]
    · unfold LRUCache.size; rw [set_found_map h k v hk]
  obtain ⟨val, hE, hval1, hval2⟩ : ∃ val,
      c1.entries = (k, val) :: c.entries.filter (fun p => decide (p.1 ≠ k)) ∧
      (c1 = c.set k v → val = v) ∧
      (c1 = (c.get k out).2.2 → c.entries.lookup k = some val) := by
    rcases ht with rfl | rfl
    · refine ⟨v0, hg, ?_, fun _ => hv0⟩
      intro e
      rw [e, hse] at hg
      simp only [List.cons.injEq, Prod.mk.injEq, true_and, and_true] at hg
      exact hg.symm
    · refine ⟨v, hse, fun _ => rfl, ?_⟩
      intro e
      rw [e, hg] at hse
      simp only [List.cons.injEq, Prod.mk.injEq, true_and, and_true] at hse
      rw [← hse]
      exact hv0
  generalize c.entries.filter (fun p => decide (p.1 ≠ k)) = E at hE
  have hlen := hw1.size_eq_entries
  rw [hE, List.length_cons] at hlen
  have hEne : E ≠ [] := by
    intro e
    rw [e] at hlen
    simp only [List.length_nil] at hlen
    omega
  have hnd := hw1.entries_keys_nodup
  rw [hE, List.map_cons, List.nodup_cons] at hnd
  have hlk : c1.entries.lookup k = some val := by
    rw [hE]; simp [List.lookup_cons]
  have hc1k : c1.contains k = true := by
    rw [hw1.contains_iff_entries, hE]; simp
  obtain ⟨t, h1, h2, h3, h4, h5, h6, h7⟩ := set_full_spec hw1 k2 v2 (by omega) hk2
  have htE : t ∈ E := by
    rw [hE] at h1
    obtain ⟨e, E1, rfl⟩ := List.exists_cons_of_ne_nil hEne
    rw [List.getLast?_cons_cons] at h1
    exact List.mem_of_getLast?_eq_some h1
  have hkE : k ∉ E.map Prod.fst := hnd.1
  have htk : t.1 ≠ k := by
    intro e
    apply hkE
    rw [← e]
    exact List.mem_map_of_mem Prod.fst htE
  have hkk2 : k ≠ k2 := by
    intro e
    rw [e, hk2] at hc1k
    exact Bool.false_ne_true hc1k
  refine ⟨val, hlk, hval1, hval2, ?_, h5 k (fun e => htk e.symm) hc1k, t.1, htk, ?_, h4⟩
  · rw [h2, lookup_cons_ne _ k2 k v2 hkk2, hE, List.dropLast_cons_of_ne_nil hEne]
    simp [List.lookup_cons]
  · rw [hw1.contains_iff_entries, hE]
    exact List.mem_cons_of_mem _ (List.mem_map_of_mem Prod.fst htE)

/-- The second scenario of the specification: capacity 2, `b` and `a` resident, `a` touched
by `get(a)`; then `set(c,3)` overflows and evicts another key, `a` keeps its value. -/
theorem C8_witness :
    Reachable scenarioAB ∧ scenarioAB.contains "a" = true ∧ 2 ≤ scenarioAB.size ∧
    (scenarioAB.get "a" "").2.2.contains "c" = false ∧
    (scenarioAB.get "a" "").2.2.cap_ < (scenarioAB.get "a" "").2.2.size + 1 ∧
    ∃ val, (scenarioAB.get "a" "").2.2.entries.lookup "a" = some val ∧
      ((scenarioAB.get "a" "").2.2 = scenarioAB.set "a" "9" → val = "9") ∧
      ((scenarioAB.get "a" "").2.2 = (scenarioAB.get "a" "").2.2 →
        scenarioAB.entries.lookup "a" = some val) ∧
      (((scenarioAB.get "a" "").2.2).set "c" "3").entries.lookup "a" = some val ∧
      (((scenarioAB.get "a" "").2.2).set "c" "3").contains "a" = true ∧
      ∃ t, t ≠ "a" ∧ (scenarioAB.get "a" "").2.2.contains t = true ∧
        (((scenarioAB.get "a" "").2.2).set "c" "3").contains t = false :=
  ⟨⟨2, _, rfl⟩, by decide, by decide, by decide, by decide,
    C8_touched_key_survives_overflow scenarioAB ⟨2, _, rfl⟩ "a" "9" "" (by decide) (by decide)
      (scenarioAB.get "a" "").2.2 (Or.inl rfl) "c" "3" (by decide) (by decide)⟩

/-- C9: in a reachable state, `set(k, v)` of a key already present replaces its value by `v`
(a following `get(k)` returns `v`), moves its entry to the head, leaves `size()` and the key
index unchanged and evicts nothing: the other entries keep their values and their relative
order, whatever the size, the capacity included. -/
theorem C9_set_existing (c : LRUCache) (hr : Reachable c) (k v out : String)
    (hk : c.contains k = true) :
    (c.set k v).entries = (k, v) :: c.entries.filter (fun p => decide (p.1 ≠ k)) ∧
    ((c.set k v).get k out).1 = true ∧ ((c.set k v).get k out).2.1 = v ∧
    (c.set k v).size = c.size ∧
    (∀ k1, (c.set k v).contains k1 = c.contains k1) ∧
    (∀ k1, k1 ≠ k → (c.set k v).entries.lookup k1 = c.entries.lookup k1) := by
  have h := hr.wf
  have hw := WF_set h k v
  have he : (c.set k v).entries = (k, v) :: c.entries.filter (fun p => decide (p.1 ≠ k)) := by
    rw [set_entries h k v, if_pos hk]
  have hm := set_found_map h k v hk
  have hc : (c.set k v).contains k = true := by
    unfold LRUCache.contains; rw [hm]; exact hk
  obtain ⟨v1, h1, h2, h3, _⟩ := get_found_spec hw k out hc
  have hv : v1 = v := by
    rw [he] at h1
    simpa [List.lookup_cons] using h1.symm
  subst hv
  refine ⟨he, h2, h3, ?_, ?_, ?_⟩
  · unfold LRUCache.size; rw [hm]
  · intro k1; unfold LRUCache.contains; rw [hm]
  · intro k1 hne
    rw [he, lookup_cons_ne _ k k1 v1 hne, lookup_filter_ne _ k k1 hne]

/-- In the first scenario (at capacity), `set(a,9)` updates `a` and evicts nothing. -/
theorem C9_witness :
    Reachable scenarioAB ∧ scenarioAB.contains "a" = true ∧
    scenarioAB.size = scenarioAB.cap_ ∧
    (scenarioAB.set "a" "9").entries = [("a", "9"), ("b", "2")] ∧
    (scenarioAB.set "a" "9").entries
      = ("a", "9") :: scenarioAB.entries.filter (fun p => decide (p.1 ≠ "a")) ∧
    ((scenarioAB.set "a" "9").get "a" "").1 = true ∧
    ((scenarioAB.set "a" "9").get "a" "").2.1 = "9" ∧
    (scenarioAB.set "a" "9").size = scenarioAB.size ∧
    (∀ k1, (scenarioAB.set "a" "9").contains k1 = scenarioAB.contains k1) ∧
    (∀ k1, k1 ≠ "a" →
      (scenarioAB.set "a" "9").entries.lookup k1 = scenarioAB.entries.lookup k1) :=
  ⟨⟨2, _, rfl⟩, by decide, by decide, by decide,
    C9_set_existing scenarioAB ⟨2, _, rfl⟩ "a" "9" "" (by decide)⟩

/-- C10: in a reachable state whose size is strictly below the capacity, `set(k, v)` of a key
not in the cache puts `(k, v)` at the head in front of the unchanged old order and evicts
nothing: `size()` grows by exactly one, and every key that was in the cache still is. -/
theorem C10_set_new_below_capacity (c : LRUCache) (hr : Reachable c) (k v : String)
    (hroom : c.size < c.cap_) (hk : c.contains k = false) :
    (c.set k v).entries = (k, v) :: c.entries ∧
    (c.set k v).size = c.size + 1 ∧
    (c.set k v).contains k = true ∧
    (∀ k1, c.contains k1 = true → (c.set k v).contains k1 = true) := by
  have h := hr.wf
  have hw := WF_set h k v
  have he : (c.set k v).entries = (k, v) :: c.entries := by
    rw [set_entries h k v, if_neg (by simp [hk]), if_pos hroom]
  refine ⟨he, ?_, ?_, ?_⟩
  · rw [hw.size_eq_entries, he, List.length_cons, h.size_eq_entries]
  · rw [hw.contains_iff_entries, he]; simp
  · intro k1 hc1
    rw [hw.contains_iff_entries, he, List.map_cons]
    exact List.mem_cons_of_mem _ ((h.contains_iff_entries k1).1 hc1)

/-- With capacity 3 and two entries, `set(c,3)` inserts at the head and evicts nothing. -/
theorem C10_witness :
    Reachable scenarioRoom ∧ scenarioRoom.size < scenarioRoom.cap_ ∧
    scenarioRoom.contains "c" = false ∧
    (scenarioRoom.set "c" "3").entries = ("c", "3") :: scenarioRoom.entries ∧
    (scenarioRoom.set "c" "3").size = scenarioRoom.size + 1 ∧
    (scenarioRoom.set "c" "3").contains "c" = true ∧
    (∀ k1, scenarioRoom.contains k1 = true → (scenarioRoom.set "c" "3").contains k1 = true) :=
  ⟨⟨3, _, rfl⟩, by decide, by decide,
    C10_set_new_below_capacity scenarioRoom ⟨3, _, rfl⟩ "c" "3" (by decide) (by decide)⟩

/-! ## Filling, erasing, construction -/

theorem lookup_of_mem_nodup (l : List (String × String)) (p : String × String)
    (hnd : (l.map Prod.fst).Nodup) (hp : p ∈ l) : l.lookup p.1 = some p.2 := by
  induction l with
  | nil => simp at hp
  | cons q l ih =>
    obtain ⟨a, b⟩ := q
    simp only [List.map_cons, List.nodup_cons] at hnd
    rcases List.mem_cons.1 hp with rfl | hp
    · simp [List.lookup_cons]
    · have hne : p.1 ≠ a := fun e => hnd.1 (e ▸ List.mem_map_of_mem Prod.fst hp)
      rw [lookup_cons_ne l a p.1 b hne]
      exact ih hnd.2 hp

/-- Setting pairwise distinct keys, no more than the capacity, stacks them up in the order. -/
theorem setAll_entries (capacity : Nat) (kvs : List (String × String))
    (hnd : (kvs.map Prod.fst).Nodup) (hlen : kvs.length ≤ capacity) :
    ((LRUCache.new capacity).run (setAll kvs)).entries = kvs.reverse := by
  induction kvs using List.reverseRecOn with
  | nil => rfl
  | append_singleton l p ih =>
    rw [List.map_append, List.nodup_append] at hnd
    rw [List.length_append, List.length_singleton] at hlen
    have ih1 := ih hnd.1 (by omega)
    have h : WF ((LRUCache.new capacity).run (setAll l)) := WF_run (WF_new capacity) _
    have hcap : ((LRUCache.new capacity).run (setAll l)).cap_ = max capacity 1 := by
      rw [run_cap, new_cap]
    have hk : ¬ ((LRUCache.new capacity).run (setAll l)).contains p.1 = true := by
      rw [h.contains_iff_entries, ih1, List.map_reverse, List.mem_reverse]
      intro hm
      exact hnd.2.2 hm (by simp)
    have hs : ((LRUCache.new capacity).run (setAll l)).size
        < ((LRUCache.new capacity).run (setAll l)).cap_ := by
      rw [h.size_eq_entries, ih1, List.length_reverse, hcap]
      omega
    have hrun : (LRUCache.new capacity).run (setAll (l ++ [p]))
        = ((LRUCache.new capacity).run (setAll l)).set p.1 p.2 := by
      unfold setAll
      rw [List.map_append, List.map_singleton, run_snoc]
      rfl
    rw [hrun, set_entries h p.1 p.2, if_neg hk, if_pos hs, ih1]
    simp

theorem erase_found_size {c : LRUCache} (h : WF c) (k : String) (hk : c.contains k = true) :
    (c.erase k).size + 1 = c.size ∧ (c.erase k).cap_ = c.cap_ := by
  unfold LRUCache.contains at hk
  obtain ⟨it, hf⟩ := Option.isSome_iff_exists.1 hk
  obtain ⟨l1, n, l2, ho, _, hn, h1, _⟩ := h.split k it hf
  have hw := WF_erase h k
  refine ⟨?_, erase_cap c k⟩
  rw [hw.size_eq, h.size_eq, erase_found c k it l1 l2 n hf ho hn h1, ho]
  simp only [List.length_append, List.length_cons]
  omega

theorem get_found_perm {c : LRUCache} (h : WF c) (k out : String) (hk : c.contains k = true) :
    (c.get k out).2.2.order_.Perm c.order_ ∧ (c.get k out).2.2.cap_ = c.cap_ := by
  unfold LRUCache.contains at hk
  obtain ⟨it, hf⟩ := Option.isSome_iff_exists.1 hk
  obtain ⟨l1, n, l2, ho, _, hn, h1, _⟩ := h.split k it hf
  refine ⟨?_, get_cap c k out⟩
  rw [get_found c k out it l1 l2 n hf ho hn h1, ho]
  exact List.perm_middle.symm

/-- C11: for every capacity and every list of pairwise distinct keys (with the values to set)
no longer than the capacity, setting them in turn on a freshly constructed cache gives
`size()` equal to the number of keys, and `get` finds each of the keys with the value that
was set for it. -/
theorem C11_distinct_sets_within_capacity (capacity : Nat) (kvs : List (String × String))
    (hnd : (kvs.map Prod.fst).Nodup) (hlen : kvs.length ≤ capacity) :
    ((LRUCache.new capacity).run (setAll kvs)).size = kvs.length ∧
    ∀ p ∈ kvs, ∀ out,
      (((LRUCache.new capacity).run (setAll kvs)).get p.1 out).1 = true ∧
      (((LRUCache.new capacity).run (setAll kvs)).get p.1 out).2.1 = p.2 := by
  have h : WF ((LRUCache.new capacity).run (setAll kvs)) := WF_run (WF_new capacity) _
  have he := setAll_entries capacity kvs hnd hlen
  refine ⟨by rw [h.size_eq_entries, he, List.length_reverse], ?_⟩
  intro p hp out
  have hc : ((LRUCache.new capacity).run (setAll kvs)).contains p.1 = true := by
    rw [h.contains_iff_entries, he]
    exact List.mem_map_of_mem Prod.fst (List.mem_reverse.2 hp)
  obtain ⟨v, h1, h2, h3, _⟩ := get_found_spec h p.1 out hc
  refine ⟨h2, ?_⟩
  rw [h3]
  have hl := lookup_of_mem_nodup kvs.reverse p
    (by rw [List.map_reverse]; exact List.nodup_reverse.2 hnd) (List.mem_reverse.2 hp)
  rw [he, hl] at h1
  exact (Option.some.inj h1).symm

/-- Three distinct keys set into a cache of capacity 3. -/
theorem C11_witness :
    ([("a", "1"), ("b", "2"), ("c", "3")].map Prod.fst).Nodup ∧
    [("a", "1"), ("b", "2"), ("c", "3")].length ≤ 3 ∧
    ((LRUCache.new 3).run (setAll [("a", "1"), ("b", "2"), ("c", "3")])).size = 3 ∧
    ∀ p ∈ [("a", "1"), ("b", "2"), ("c", "3")], ∀ out,
      (((LRUCache.new 3).run (setAll [("a", "1"), ("b", "2"), ("c", "3")])).get p.1 out).1
        = true ∧
      (((LRUCache.new 3).run (setAll [("a", "1"), ("b", "2"), ("c", "3")])).get p.1 out).2.1
        = p.2 :=
  ⟨by decide, by decide,
    C11_distinct_sets_within_capacity 3 [("a", "1"), ("b", "2"), ("c", "3")]
      (by decide) (by decide)⟩

/-- C12: in a reachable state, `erase(k)` of a key present in the cache removes its entry from
the recency order and from the key index, so that a following `get(k)` returns not-found;
`size()` goes down by exactly one, the capacity stays, and the other entries keep their
values and their relative order. -/
theorem C12_erase_present (c : LRUCache) (hr : Reachable c) (k out : String)
    (hk : c.contains k = true) :
    (c.erase k).entries = c.entries.filter (fun p => decide (p.1 ≠ k)) ∧
    k ∉ (c.erase k).keys ∧
    (c.erase k).contains k = false ∧
    ((c.erase k).get k out).1 = false ∧
    (c.erase k).size + 1 = c.size ∧
    (c.erase k).cap_ = c.cap_ ∧
    (∀ k1, k1 ≠ k → (c.erase k).contains k1 = c.contains k1) ∧
    (∀ k1, k1 ≠ k → (c.erase k).entries.lookup k1 = c.entries.lookup k1) := by
  have h := hr.wf
  have hw := WF_erase h k
  have he := erase_entries h k
  have hkn : k ∉ (c.erase k).keys := by
    rw [← entries_keys, he]
    intro hm
    obtain ⟨p, hp, hpk⟩ := List.mem_map.1 hm
    have := (List.mem_filter.1 hp).2
    simp [hpk] at this
  have hcf : (c.erase k).contains k = false := (hw.contains_eq_false k).2 hkn
  obtain ⟨hs, hcap⟩ := erase_found_size h k hk
  refine ⟨he, hkn, hcf, ?_, hs, hcap, ?_, ?_⟩
  · rw [get_absent _ k out ((contains_eq_false_iff _ k).1 hcf)]
  · intro k1 hne
    rw [Bool.eq_iff_iff, hw.contains_iff_entries, h.contains_iff_entries, he]
    constructor
    · intro hm
      obtain ⟨p, hp, hpk⟩ := List.mem_map.1 hm
      exact hpk ▸ List.mem_map_of_mem Prod.fst (List.mem_filter.1 hp).1
    · intro hm
      obtain ⟨p, hp, hpk⟩ := List.mem_map.1 hm
      exact hpk ▸ List.mem_map_of_mem Prod.fst
        (List.mem_filter.2 ⟨hp, by simpa [hpk] using hne⟩)
  · intro k1 hne
    rw [he, lookup_filter_ne _ k k1 hne]

/-- In the first scenario, `erase(a)` leaves `b` alone and `get(a)` finds nothing. -/
theorem C12_witness :
    Reachable scenarioAB ∧ scenarioAB.contains "a" = true ∧
    (scenarioAB.erase "a").entries = [("b", "2")] ∧
    ((scenarioAB.erase "a").entries
        = scenarioAB.entries.filter (fun p => decide (p.1 ≠ "a")) ∧
      "a" ∉ (scenarioAB.erase "a").keys ∧
      (scenarioAB.erase "a").contains "a" = false ∧
      ((scenarioAB.erase "a").get "a" "").1 = false ∧
      (scenarioAB.erase "a").size + 1 = scenarioAB.size ∧
      (scenarioAB.erase "a").cap_ = scenarioAB.cap_ ∧
      (∀ k1, k1 ≠ "a" → (scenarioAB.erase "a").contains k1 = scenarioAB.contains k1) ∧
      (∀ k1, k1 ≠ "a" →
        (scenarioAB.erase "a").entries.lookup k1 = scenarioAB.entries.lookup k1)) :=
  ⟨⟨2, _, rfl⟩, by decide, by decide,
    C12_erase_present scenarioAB ⟨2, _, rfl⟩ "a" "" (by decide)⟩

/-- C13: `erase(k)` of a key that is not in the cache is a no-op: the state after it is the
state before it, so the recency order, the key index and `size()` are unchanged; this holds
in every state, the reachable ones included. -/
theorem C13_erase_absent (c : LRUCache) (k : String) (hk : c.contains k = false) :
    c.erase k = c ∧ (c.erase k).order_ = c.order_ ∧ (c.erase k).map_ = c.map_ ∧
    (c.erase k).size = c.size := by
  rw [erase_absent c k ((contains_eq_false_iff c k).1 hk)]
  exact ⟨rfl, rfl, rfl, rfl⟩

/-- In the first scenario, `erase(z)` changes nothing. -/
theorem C13_witness :
    scenarioAB.contains "z" = false ∧
    (scenarioAB.erase "z" = scenarioAB ∧ (scenarioAB.erase "z").order_ = scenarioAB.order_ ∧
      (scenarioAB.erase "z").map_ = scenarioAB.map_ ∧
      (scenarioAB.erase "z").size = scenarioAB.size) :=
  ⟨by decide, C13_erase_absent scenarioAB "z" (by decide)⟩

/-- C14: a cache constructed with capacity 0 is the cache constructed with capacity 1, and
for every sequence of get/set/erase/size calls the two give the same answer at every call
and end in the same state. -/
theorem C14_capacity_zero_is_one (xs : List Call) :
    LRUCache.new 0 = LRUCache.new 1 ∧
    ((LRUCache.new 0).calls xs).1 = ((LRUCache.new 1).calls xs).1 ∧
    ((LRUCache.new 0).calls xs).2 = ((LRUCache.new 1).calls xs).2 ∧
    ((LRUCache.new 0).calls xs).1.length = xs.length := by
  have h : LRUCache.new 0 = LRUCache.new 1 := rfl
  refine ⟨h, by rw [h], by rw [h], ?_⟩
  generalize LRUCache.new 0 = c
  induction xs generalizing c with
  | nil => rfl
  | cons x xs ih =>
    show (((c.call x).2.calls xs).1).length + 1 = xs.length + 1
    rw [ih]

/-- C18: in a reachable state, a `get(k)` that finds its key changes only the position of
the entry of `k`: the new order is that entry followed by the old order without it, the nodes
are the same, the key index, the capacity and `size()` are unchanged, and every key is bound
to the value it was bound to before. -/
theorem C18_get_found_frame (c : LRUCache) (hr : Reachable c) (k out : String)
    (hk : c.contains k = true) :
    ∃ v, c.entries.lookup k = some v ∧
      (c.get k out).2.2.entries = (k, v) :: c.entries.filter (fun p => decide (p.1 ≠ k)) ∧
      (c.get k out).2.2.order_.Perm c.order_ ∧
      (c.get k out).2.2.map_ = c.map_ ∧
      (c.get k out).2.2.cap_ = c.cap_ ∧
      (c.get k out).2.2.size = c.size ∧
      (∀ k1, (c.get k out).2.2.contains k1 = c.contains k1) ∧
      (∀ k1, (c.get k out).2.2.entries.lookup k1 = c.entries.lookup k1) := by
  have h := hr.wf
  obtain ⟨v, h1, _, _, h4, h5, _⟩ := get_found_spec h k out hk
  obtain ⟨hp, hcap⟩ := get_found_perm h k out hk
  refine ⟨v, h1, h4, hp, h5, hcap, ?_, ?_, ?_⟩
  · unfold LRUCache.size; rw [h5]
  · intro k1; unfold LRUCache.contains; rw [h5]
  · intro k1
    by_cases hne : k1 = k
    · subst hne
      rw [h4, h1]
      simp [List.lookup_cons]
    · rw [h4, lookup_cons_ne _ k k1 v hne, lookup_filter_ne _ k k1 hne]

/-- In the first scenario, `get(a)` only moves `a` in front of `b`. -/
theorem C18_witness :
    Reachable scenarioAB ∧ scenarioAB.contains "a" = true ∧
    scenarioAB.entries = [("b", "2"), ("a", "1")] ∧
    (scenarioAB.get "a" "").2.2.entries = [("a", "1"), ("b", "2")] ∧
    ∃ v, scenarioAB.entries.lookup "a" = some v ∧
      (scenarioAB.get "a" "").2.2.entries
        = ("a", v) :: scenarioAB.entries.filter (fun p => decide (p.1 ≠ "a")) ∧
      (scenarioAB.get "a" "").2.2.order_.Perm scenarioAB.order_ ∧
      (scenarioAB.get "a" "").2.2.map_ = scenarioAB.map_ ∧
      (scenarioAB.get "a" "").2.2.cap_ = scenarioAB.cap_ ∧
      (scenarioAB.get "a" "").2.2.size = scenarioAB.size ∧
      (∀ k1, (scenarioAB.get "a" "").2.2.contains k1 = scenarioAB.contains k1) ∧
      (∀ k1, (scenarioAB.get "a" "").2.2.entries.lookup k1 = scenarioAB.entries.lookup k1) :=
  ⟨⟨2, _, rfl⟩, by decide, by decide, by decide,
    C18_get_found_frame scenarioAB ⟨2, _, rfl⟩ "a" "" (by decide)⟩

/-- For capacity 0 and for capacity 1 alike: after `set(a,1)`, `set(b,2)` the size is 1 and
`a` is gone. -/
theorem C14_witness :
    ((LRUCache.new 0).calls
        [Call.set "a" "1", Call.set "b" "2", Call.size, Call.get "a" "", Call.get "b" ""]).1
      = [Answer.done, Answer.done, Answer.count 1, Answer.got false "", Answer.got true "2"] ∧
    ((LRUCache.new 0).calls
        [Call.set "a" "1", Call.set "b" "2", Call.size, Call.get "a" "", Call.get "b" ""]).1
      = ((LRUCache.new 1).calls
        [Call.set "a" "1", Call.set "b" "2", Call.size, Call.get "a" "", Call.get "b" ""]).1 :=
  ⟨by decide,
    (C14_capacity_zero_is_one
      [Call.set "a" "1", Call.set "b" "2", Call.size, Call.get "a" "", Call.get "b" ""]).2.1⟩

/-! ## The load generator: the mix and the classification of responses -/

/-- What `find` returns: the length of the shortest text in front of an occurrence of the
pattern, and `npos` exactly when there is no occurrence. -/
theorem str_find_spec (pat s : List Char) :
    (∀ p, str_find pat s = some p →
      (∃ l r, s = l ++ pat ++ r ∧ l.length = p) ∧
      ∀ l2 r2, s = l2 ++ pat ++ r2 → p ≤ l2.length) ∧
    (str_find pat s = none → ∀ l r, s ≠ l ++ pat ++ r) := by
  induction s with
  | nil =>
    unfold str_find
    by_cases hp : pat.isPrefixOf [] = true
    · rw [if_pos hp]
      refine ⟨?_, fun h => by simp at h⟩
      intro p hp0
      have hp1 : p = 0 := (Option.some.inj hp0).symm
      subst hp1
      have hnil : pat = [] := by
        have := List.isPrefixOf_iff_prefix.1 hp
        exact List.prefix_nil.1 this
      exact ⟨⟨[], [], by simp [hnil], rfl⟩, fun _ _ _ => Nat.zero_le _⟩
    · rw [if_neg hp]
      refine ⟨fun p h => by simp at h, ?_⟩
      intro _ l r he
      have h1 : l ++ pat ++ r = [] := he.symm
      simp only [List.append_eq_nil] at h1
      apply hp
      rw [h1.1.2]
      rfl
  | cons c t ih =>
    unfold str_find
    by_cases hp : pat.isPrefixOf (c :: t) = true
    · rw [if_pos hp]
      refine ⟨?_, fun h => by simp at h⟩
      intro p hp0
      have hp1 : p = 0 := (Option.some.inj hp0).symm
      subst hp1
      obtain ⟨r, hr⟩ := List.isPrefixOf_iff_prefix.1 hp
      exact ⟨⟨[], r, by simp [hr], rfl⟩, fun _ _ _ => Nat.zero_le _⟩
    · rw [if_neg hp]
      have hnp : ∀ r2, c :: t ≠ [] ++ pat ++ r2 := by
        intro r2 he
        apply hp
        rw [List.isPrefixOf_iff_prefix]
        exact ⟨r2, by simpa using he.symm⟩
      constructor
      · intro p hp0
        cases hf : str_find pat t with
        | none => rw [hf] at hp0; simp at hp0
        | some q =>
          rw [hf] at hp0
          have hpq : p = q + 1 := by simpa using hp0.symm
          subst hpq
          obtain ⟨⟨l, r, he, hl⟩, hmin⟩ := ih.1 q hf
          refine ⟨⟨c :: l, r, by simp [he], by simp [hl]⟩, ?_⟩
          intro l2 r2 he2
          cases l2 with
          | nil => exact absurd he2 (hnp r2)
          | cons c2 l2 =>
            simp only [List.cons_append, List.cons.injEq] at he2
            have := hmin l2 r2 he2.2
            simp only [List.length_cons]
            omega
      · intro hn l r he
        cases hf : str_find pat t with
        | some q => rw [hf] at hn; simp at hn
        | none =>
          cases l with
          | nil => exact hnp r he
          | cons c2 l =>
            simp only [List.cons_append, List.cons.injEq] at he
            exact ih.2 hf l r he.2

theorem str_find_zero_iff (pat s : List Char) : str_find pat s = some 0 ↔ pat <+: s := by
  rw [← List.isPrefixOf_iff_prefix]
  cases s with
  | nil =>
    unfold str_find
    by_cases hp : pat.isPrefixOf [] = true <;> simp [hp]
  | cons c t =>
    unfold str_find
    by_cases hp : pat.isPrefixOf (c :: t) = true
    · simp [hp]
    · rw [if_neg hp]
      cases str_find pat t <;> simp [hp]

/-- The position `find` gives for CRLF is the length of the text before the first CRLF. -/
theorem textBeforeFirstCRLF_iff (resp line : List Char) :
    TextBeforeFirstCRLF resp line ↔
      str_find "\r\n".toList resp = some line.length ∧ substr resp 0 line.length = line := by
  have hspec := str_find_spec "\r\n".toList resp
  constructor
  · rintro ⟨⟨rest, hrest⟩, hmin⟩
    cases hf : str_find "\r\n".toList resp with
    | none => exact absurd hrest (hspec.2 hf line rest)
    | some p =>
      obtain ⟨⟨l, r, he, hl⟩, hminp⟩ := hspec.1 p hf
      have h1 := hminp line rest hrest
      have h2 := hmin l r he
      have hp : p = line.length := by omega
      refine ⟨by rw [hp], ?_⟩
      unfold substr
      rw [List.drop_zero]
      conv_lhs => rw [hrest, List.append_assoc]
      exact List.take_left _ _
  · rintro ⟨hf, hsub⟩
    obtain ⟨⟨l, r, he, hl⟩, hminp⟩ := hspec.1 _ hf
    have hll : l = line := by
      rw [← hsub]
      unfold substr
      rw [List.drop_zero, he, List.append_assoc]
      exact (List.take_left' hl).symm
    subst hll
    exact ⟨⟨r, he⟩, hminp⟩

theorem is_success_response_iff (resp : List Char) :
    is_success_response resp = true ↔
      ∃ line, TextBeforeFirstCRLF resp line ∧ Is2xxStatusLine line := by
  unfold Is2xxStatusLine
  constructor
  · intro h
    unfold is_success_response at h
    cases hf : str_find "\r\n".toList resp with
    | none => rw [hf] at h; simp at h
    | some pos =>
      rw [hf] at h
      obtain ⟨⟨l, r, he, hl⟩, _⟩ := (str_find_spec "\r\n".toList resp).1 pos hf
      have hsub : substr resp 0 pos = l := by
        unfold substr
        rw [List.drop_zero, he, List.append_assoc]
        exact List.take_left' hl
      refine ⟨l, (textBeforeFirstCRLF_iff resp l).2 ⟨by rw [hl]; exact hf, by rw [hl]; exact hsub⟩, ?_⟩
      simp only [hsub, Bool.or_eq_true, beq_iff_eq] at h
      rw [str_find_zero_iff, str_find_zero_iff] at h
      exact h
  · rintro ⟨line, hline, h2⟩
    obtain ⟨hf, hsub⟩ := (textBeforeFirstCRLF_iff resp line).1 hline
    unfold is_success_response
    rw [hf]
    simp only [hsub, Bool.or_eq_true, beq_iff_eq]
    rw [str_find_zero_iff, str_find_zero_iff]
    exact h2

theorem is_success_response_of_line (resp line : List Char)
    (h : TextBeforeFirstCRLF resp line) :
    is_success_response resp = true ↔ Is2xxStatusLine line := by
  rw [is_success_response_iff]
  constructor
  · rintro ⟨line2, h2, hx⟩
    obtain ⟨hf, hsub⟩ := (textBeforeFirstCRLF_iff resp line).1 h
    obtain ⟨hf2, hsub2⟩ := (textBeforeFirstCRLF_iff resp line2).1 h2
    have hlen : line2.length = line.length := Option.some.inj (hf2.symm.trans hf)
    have : line2 = line := by rw [← hsub2, hlen, hsub]
    exact this ▸ hx
  · intro hx
    exact ⟨line, h, hx⟩

/-! ## The load generator: the statistics of a thread -/

theorem incr64_of_lt (x : Nat) (h : x + 1 < 2 ^ 64) : incr64 x = x + 1 :=
  Nat.mod_eq_of_lt h

theorem client_thread_func_snoc {F : Type} (addNs : F → Int → F) (zero : F)
    (attempts : List Attempt) (a : Attempt) :
    client_thread_func addNs zero (attempts ++ [a])
      = iteration addNs (client_thread_func addNs zero attempts) a := by
  simp [client_thread_func, List.foldl_append]

theorem connectFailures_snoc (attempts : List Attempt) (a : Attempt) :
    connectFailures (attempts ++ [a])
      = connectFailures attempts + (if a = Attempt.connectFailed then 1 else 0) := by
  unfold connectFailures
  rw [List.filter_append, List.length_append]
  by_cases h : a = Attempt.connectFailed <;> simp [h]

/-- The bookkeeping of an iteration whose connection was made, away from the wrap-around of
the counters. -/
theorem record_step {F : Type} (addNs : F → Int → F) (s : ThreadStats F) (ok : Bool)
    (resp : List Char) (ns : Int) (hr : s.requests + 1 < 2 ^ 64)
    (hs : s.successes + 1 < 2 ^ 64) (he : s.errors + 1 < 2 ^ 64) :
    (record addNs s ok resp ns).requests = s.requests + 1 ∧
    (record addNs s ok resp ns).total_latency_ns = addNs s.total_latency_ns ns ∧
    (((record addNs s ok resp ns).successes = s.successes + 1 ∧
        (record addNs s ok resp ns).errors = s.errors) ∨
      ((record addNs s ok resp ns).successes = s.successes ∧
        (record addNs s ok resp ns).errors = s.errors + 1)) := by
  unfold record
  dsimp only
  by_cases hc : (!ok || !is_success_response resp) = true
  · rw [if_pos hc]
    exact ⟨incr64_of_lt _ hr, rfl, Or.inr ⟨rfl, incr64_of_lt _ he⟩⟩
  · rw [if_neg hc]
    exact ⟨incr64_of_lt _ hr, rfl, Or.inl ⟨incr64_of_lt _ hs, rfl⟩⟩

/-- One iteration, away from the wrap-around of the counters. -/
theorem iteration_step {F : Type} (addNs : F → Int → F) (s : ThreadStats F) (a : Attempt)
    (hr : s.requests + 1 < 2 ^ 64) (hs : s.successes + 1 < 2 ^ 64)
    (he : s.errors + 1 < 2 ^ 64) :
    (((iteration addNs s a).successes = s.successes + 1 ∧
        (iteration addNs s a).errors = s.errors) ∨
      ((iteration addNs s a).successes = s.successes ∧
        (iteration addNs s a).errors = s.errors + 1)) ∧
    (a = Attempt.connectFailed →
      (iteration addNs s a).requests = s.requests ∧
      (iteration addNs s a).total_latency_ns = s.total_latency_ns ∧
      (iteration addNs s a).errors = s.errors + 1) ∧
    (a ≠ Attempt.connectFailed →
      (iteration addNs s a).requests = s.requests + 1 ∧
      ∃ ns, (iteration addNs s a).total_latency_ns = addNs s.total_latency_ns ns) := by
  cases a with
  | connectFailed =>
    refine ⟨Or.inr ⟨rfl, incr64_of_lt _ he⟩, fun _ => ⟨rfl, rfl, incr64_of_lt _ he⟩,
      fun h => absurd rfl h⟩
  | writeFailed ns =>
    obtain ⟨h1, h2, h3⟩ := record_step addNs s false [] ns hr hs he
    exact ⟨h3, fun h => by simp at h, fun _ => ⟨h1, ns, h2⟩⟩
  | answered readOk resp ns =>
    obtain ⟨h1, h2, h3⟩ := record_step addNs s readOk resp ns hr hs he
    exact ⟨h3, fun h => by simp at h, fun _ => ⟨h1, ns, h2⟩⟩

/-- The counters after a run that is too short for a counter to wrap around. -/
theorem stats_inv {F : Type} (addNs : F → Int → F) (zero : F) (attempts : List Attempt)
    (hlen : attempts.length < 2 ^ 64) :
    (client_thread_func addNs zero attempts).successes
        + (client_thread_func addNs zero attempts).errors = attempts.length ∧
    (client_thread_func addNs zero attempts).requests + connectFailures attempts
        = attempts.length ∧
    (client_thread_func addNs zero attempts).successes
        ≤ (client_thread_func addNs zero attempts).requests := by
  induction attempts using List.reverseRecOn with
  | nil => simp [client_thread_func, connectFailures]
  | append_singleton l a ih =>
    rw [List.length_append, List.length_singleton] at hlen ⊢
    obtain ⟨i1, i2, i3⟩ := ih (by omega)
    rw [client_thread_func_snoc, connectFailures_snoc]
    obtain ⟨h1, h2, h3⟩ := iteration_step addNs (client_thread_func addNs zero l) a
      (by omega) (by omega) (by omega)
    by_cases ha : a = Attempt.connectFailed
    · obtain ⟨h4, _, _⟩ := h2 ha
      rw [if_pos ha]
      rcases h1 with ⟨h5, h6⟩ | ⟨h5, h6⟩ <;> omega
    · obtain ⟨h4, _⟩ := h3 ha
      rw [if_neg ha]
      rcases h1 with ⟨h5, h6⟩ | ⟨h5, h6⟩ <;> omega

/-! ## The claims on the load generator -/

/-- C16, as claimed, fails: it is not the case that 75 of the 100 draws of the mixed workload
select a read and 25 a write. -/
theorem C16_counterexample :
    ¬ (mixMethodCount Method.GET = 75 ∧ mixMethodCount Method.POST = 25) := by
  decide

/-- C16, amended: the mixed workload is an 80/20 read/write mix.  A draw `r` selects the
hot-key GET when `r < 50`, the generated-key GET when `50 ≤ r < 80` and the PUT otherwise, so
of the 100 values 0..99 of the draw exactly 80 select a read (50 the hot key, 30 a generated
key) and exactly 20 select a write. -/
theorem C16_mix_is_80_20 :
    mixDraws.length = 100 ∧
    (∀ r : Int, requestMethod (eff_workload WorkloadType.MIX r)
      = some (if r < 80 then Method.GET else Method.POST)) ∧
    mixMethodCount Method.GET = 80 ∧ mixMethodCount Method.POST = 20 ∧
    mixCount WorkloadType.GET_POPULAR = 50 ∧ mixCount WorkloadType.GET_ALL = 30 ∧
    mixCount WorkloadType.PUT_ALL = 20 := by
  refine ⟨by decide, ?_, by decide, by decide, by decide, by decide, by decide⟩
  intro r
  unfold eff_workload
  rw [if_pos rfl]
  by_cases h1 : r < 50
  · rw [if_pos h1, if_pos (by omega)]; rfl
  · rw [if_neg h1]
    by_cases h2 : r < 80
    · rw [if_pos h2, if_pos h2]; rfl
    · rw [if_neg h2, if_neg h2]; rfl

/-- C17: `is_success_response` returns true exactly when the response has a CRLF and the
text before its first CRLF begins with `HTTP/1.1 2` or `HTTP/1.0 2`; so two responses with
the same text before their first CRLF are classified alike, and a response without CRLF is
classified as an error. -/
theorem C17_is_success_response_by_status_line (resp : List Char) :
    (is_success_response resp = true ↔
      ∃ line, TextBeforeFirstCRLF resp line ∧ Is2xxStatusLine line) ∧
    (∀ resp2 line, TextBeforeFirstCRLF resp line → TextBeforeFirstCRLF resp2 line →
      is_success_response resp = is_success_response resp2) ∧
    ((¬ ∃ l r, resp = l ++ "\r\n".toList ++ r) → is_success_response resp = false) := by
  refine ⟨is_success_response_iff resp, ?_, ?_⟩
  · intro resp2 line h1 h2
    rw [Bool.eq_iff_iff, is_success_response_of_line resp line h1,
      is_success_response_of_line resp2 line h2]
  · intro hno
    rw [Bool.eq_false_iff]
    intro ht
    obtain ⟨line, ⟨⟨rest, hrest⟩, _⟩, _⟩ := (is_success_response_iff resp).1 ht
    exact hno ⟨line, rest, hrest⟩

/-- A 200 answer and a 204 answer are successes, a 404 answer and an answer cut before its
CRLF are errors. -/
theorem C17_witness :
    is_success_response "HTTP/1.1 200 OK\r\n\r\nv".toList = true ∧
    is_success_response "HTTP/1.0 204 No Content\r\n\r\n".toList = true ∧
    is_success_response "HTTP/1.1 404 Not Found\r\n\r\n".toList = false ∧
    is_success_response "HTTP/1.1 200 OK".toList = false ∧
    ∃ line, TextBeforeFirstCRLF "HTTP/1.1 200 OK\r\n\r\nv".toList line ∧
      Is2xxStatusLine line :=
  ⟨by decide, by decide, by decide, by decide,
    (C17_is_success_response_by_status_line "HTTP/1.1 200 OK\r\n\r\nv".toList).1.1
      (by decide)⟩

/-- C19: in a run of the loop that is too short for a 64-bit counter to wrap around (fewer
than 2^64 iterations), every iteration adds one to exactly one of `successes` and `errors`;
an iteration whose connection failed leaves `requests` and the cumulative latency alone, and
every other iteration adds one to `requests` and one duration to the latency; and after any
number of iterations `successes ≤ requests ≤ successes + errors` and `requests` plus the
number of connection failures is `successes + errors`. -/
theorem C19_thread_stats (F : Type) (addNs : F → Int → F) (zero : F)
    (attempts : List Attempt) (hlen : attempts.length < 2 ^ 64) :
    (∀ m,
      (client_thread_func addNs zero (attempts.take m)).successes
        ≤ (client_thread_func addNs zero (attempts.take m)).requests ∧
      (client_thread_func addNs zero (attempts.take m)).requests
        ≤ (client_thread_func addNs zero (attempts.take m)).successes
          + (client_thread_func addNs zero (attempts.take m)).errors ∧
      (client_thread_func addNs zero (attempts.take m)).requests
          + connectFailures (attempts.take m)
        = (client_thread_func addNs zero (attempts.take m)).successes
          + (client_thread_func addNs zero (attempts.take m)).errors) ∧
    (∀ n a, attempts[n]? = some a →
      (((client_thread_func addNs zero (attempts.take (n + 1))).successes
            = (client_thread_func addNs zero (attempts.take n)).successes + 1 ∧
          (client_thread_func addNs zero (attempts.take (n + 1))).errors
            = (client_thread_func addNs zero (attempts.take n)).errors) ∨
        ((client_thread_func addNs zero (attempts.take (n + 1))).successes
            = (client_thread_func addNs zero (attempts.take n)).successes ∧
          (client_thread_func addNs zero (attempts.take (n + 1))).errors
            = (client_thread_func addNs zero (attempts.take n)).errors + 1)) ∧
      (a = Attempt.connectFailed →
        (client_thread_func addNs zero (attempts.take (n + 1))).requests
          = (client_thread_func addNs zero (attempts.take n)).requests ∧
        (client_thread_func addNs zero (attempts.take (n + 1))).total_latency_ns
          = (client_thread_func addNs zero (attempts.take n)).total_latency_ns) ∧
      (a ≠ Attempt.connectFailed →
        (client_thread_func addNs zero (attempts.take (n + 1))).requests
          = (client_thread_func addNs zero (attempts.take n)).requests + 1 ∧
        ∃ ns, (client_thread_func addNs zero (attempts.take (n + 1))).total_latency_ns
          = addNs (client_thread_func addNs zero (attempts.take n)).total_latency_ns ns)) := by
  constructor
  · intro m
    have hm : (attempts.take m).length < 2 ^ 64 := by
      rw [List.length_take]
      omega
    obtain ⟨i1, i2, i3⟩ := stats_inv addNs zero (attempts.take m) hm
    refine ⟨i3, ?_, ?_⟩ <;> omega
  · intro n a ha
    have hn : n < attempts.length := by
      by_contra hge
      rw [List.getElem?_eq_none (by omega)] at ha
      exact Option.noConfusion ha
    have htake : attempts.take (n + 1) = attempts.take n ++ [a] := by
      rw [List.take_succ, ha]
      rfl
    have hlen_n : (attempts.take n).length = n := by
      rw [List.length_take]; omega
    obtain ⟨i1, i2, i3⟩ := stats_inv addNs zero (attempts.take n) (by omega)
    rw [htake, client_thread_func_snoc]
    obtain ⟨h1, h2, h3⟩ := iteration_step addNs (client_thread_func addNs zero (attempts.take n))
      a (by omega) (by omega) (by omega)
    exact ⟨h1, fun e => ⟨(h2 e).1, (h2 e).2.1⟩, h3⟩

/-- A run of three iterations: one connection failure, one failed write, one success; the
counters end at requests 2, successes 1, errors 2. -/
theorem C19_witness :
    demoAttempts.length < 2 ^ 64 ∧
    (client_thread_func (fun (x : Int) ns => x + ns) 0 demoAttempts).requests = 2 ∧
    (client_thread_func (fun (x : Int) ns => x + ns) 0 demoAttempts).successes = 1 ∧
    (client_thread_func (fun (x : Int) ns => x + ns) 0 demoAttempts).errors = 2 ∧
    connectFailures demoAttempts = 1 ∧
    ((client_thread_func (fun (x : Int) ns => x + ns) 0 (demoAttempts.take 3)).successes
        ≤ (client_thread_func (fun (x : Int) ns => x + ns) 0 (demoAttempts.take 3)).requests ∧
      (client_thread_func (fun (x : Int) ns => x + ns) 0 (demoAttempts.take 3)).requests
        ≤ (client_thread_func (fun (x : Int) ns => x + ns) 0 (demoAttempts.take 3)).successes
          + (client_thread_func (fun (x : Int) ns => x + ns) 0 (demoAttempts.take 3)).errors ∧
      (client_thread_func (fun (x : Int) ns => x + ns) 0 (demoAttempts.take 3)).requests
          + connectFailures (demoAttempts.take 3)
        = (client_thread_func (fun (x : Int) ns => x + ns) 0 (demoAttempts.take 3)).successes
          + (client_thread_func (fun (x : Int) ns => x + ns) 0 (demoAttempts.take 3)).errors) :=
  ⟨by decide, by decide, by decide, by decide, by decide,
    (C19_thread_stats Int (fun (x : Int) ns => x + ns) 0 demoAttempts (by decide)).1 3⟩

end KV
